import Mathlib

/-!
Shallow embedding of the DV-STM core (dual-versioned software transactional
memory), translated from the authoritative sources in src/371274
(tm.c, batcher.c, batcher.h).  Machine integers (uint64_t access sets) are
modelled as Nat with the 64-bit complement made explicit; per-word memory is
modelled at word granularity (one Nat per align-byte word, the unit at which
every read, write, rollback and snapshot copy of the source operates).
Sequentially consistent interleavings of the concurrent C program are modelled
by a small-step relation in which each API call is one atomic step; the
thread-batcher ghost state (which transactions are active in the current
epoch and which are parked for the next one) mirrors the admission protocol.
-/

set_option maxRecDepth 100000

namespace STM

/-- Maximum number of read/write transactions per batch (batcher.h line 65). -/
def MAX_RW_TX : Nat := 63

/-- Maximum number of segments per region (batcher.h line 67). -/
def MAX_SEG : Nat := 64

/-- Identifier of the non-freeable first segment (batcher.h line 68). -/
def FIRST_SEG : Nat := 1

/-- Number of bits of byte offset inside an opaque address (batcher.h line 70). -/
def SHIFT : Nat := 48

/-- The written? flag of a per-word access set: most significant bit of a
uint64_t (batcher.h line 74). -/
def WRITTEN : Nat := 2 ^ 63

/-- Bitwise complement at width 64, the meaning of the C operator on a
uint64_t operand. -/
def compl64 (x : Nat) : Nat := (2 ^ 64 - 1) ^^^ x

/-- Pointwise update of a function, modelling assignment into a C array. -/
def updFn {α : Type} (f : Nat → α) (i : Nat) (v : α) : Nat → α :=
  fun j => if j = i then v else f j

/-- Word range update: bitwise-or a pattern into every access set of the word
interval [lo, lo+n), modelling the access-set configuration loops. -/
def orRange (f : Nat → Nat) (lo n bits : Nat) : Nat → Nat :=
  fun w => if lo ≤ w ∧ w < lo + n then f w ||| bits else f w

/-- Word range update: bitwise-and a mask into every access set of the word
interval [lo, lo+n), modelling the access-set reset loops of batcher_leave. -/
def andRange (f : Nat → Nat) (lo n mask : Nat) : Nat → Nat :=
  fun w => if lo ≤ w ∧ w < lo + n then f w &&& mask else f w

/-- Word range copy: overwrite dst with src on the interval [lo, lo+n),
modelling an aligned memcpy between the two copies of a segment. -/
def copyRange (dst src : Nat → Nat) (lo n : Nat) : Nat → Nat :=
  fun w => if lo ≤ w ∧ w < lo + n then src w else dst w

/-- Word range write from a private source buffer, modelling the memcpy of
tm_write: word lo + j receives src j. -/
def writeRange (dst : Nat → Nat) (lo n : Nat) (src : Nat → Nat) : Nat → Nat :=
  fun w => if lo ≤ w ∧ w < lo + n then src (w - lo) else dst w

/-- Word range read into a private buffer, modelling the memcpy of tm_read. -/
def readSlice (f : Nat → Nat) (lo n : Nat) : List Nat :=
  (List.range n).map (fun j => f (lo + j))

/-- Operation record of a read/write transaction (struct record, batcher.h
lines 113-146); the union payload becomes a tagged variant. -/
inductive Record where
  | read  (seg_id offset size : Nat)
  | write (seg_id offset size : Nat)
  | alloc (seg_id : Nat)
  | free  (seg_id : Nat)
deriving DecidableEq

/-- A segment node (struct segment_node, batcher.h lines 95-107).  size is
kept in words (num_words = size / align of the source); aset maps a word
index to its 64-bit access-set value; ro and rw map a word index to the word
stored in the read-only, respectively read/write, copy. -/
structure Seg where
  numWords : Nat
  freed : Bool
  written : Bool
  aset : Nat → Nat
  ro : Nat → Nat
  rw : Nat → Nat

/-- The thread batcher (struct batcher_t, batcher.h lines 79-87). -/
structure Batcher where
  counter : Nat
  rw_tx : Nat
  ro_tx : Nat
  remaining : Nat
  blocked : Nat
deriving DecidableEq

/-- A shared memory region (struct region, batcher.h lines 151-232):
batcher, alignment, segment-id stack (segment_id with stack pointer top),
segment table allocs, and the per-transaction operation history. -/
structure Region where
  align : Nat
  batcher : Batcher
  top : Nat
  segment_id : Nat → Nat
  allocs : Nat → Option Seg
  history : Nat → List Record

/-- System state: the region plus ghost admission bookkeeping.  active lists
the transaction ids admitted to the running epoch that have not yet left;
blockedTx lists the ids handed out to threads parked in batcher_enter, which
start running at the next epoch boundary. -/
structure Sys where
  reg : Region
  active : List Nat
  blockedTx : List Nat

/-- Store a segment node under the given id (assignment into region->allocs). -/
def setSeg (reg : Region) (i : Nat) (sn : Seg) : Region :=
  { reg with allocs := updFn reg.allocs i (some sn) }

/-- Set the freed flag of a segment (atomic_store(&sn->freed, true)). -/
def markFreed (reg : Region) (i : Nat) : Region :=
  match reg.allocs i with
  | none => reg
  | some sn => setSeg reg i { sn with freed := true }

/-- Conflict test of the tm_read word loop (src/371274/tm.c lines 259-261):
abort unless the word was written by the calling transaction alone or not
written at all. -/
def readConflictAt (bitmap pattern : Nat) : Bool :=
  decide (¬ (bitmap = WRITTEN ||| pattern ∨ bitmap < WRITTEN))

/-- Conflict test of the tm_write word loop, literal to src/371274/tm.c line
316.  The C expression `bitmap & ~WRITTEN & ~pattern > 0` parses, by C
operator precedence, as `bitmap & ~WRITTEN & (~pattern > 0)`: the relational
comparison binds tighter than bitwise and, so the last factor is the integer
0 or 1. -/
def writeConflictAt (bitmap pattern : Nat) : Bool :=
  decide (bitmap &&& compl64 WRITTEN &&& (if 0 < compl64 pattern then 1 else 0) ≠ 0)

/-- Processing of a single operation record during batcher_leave
(src/371274/batcher.c lines 115-182).  A record naming a segment id with no
registered segment would be a null dereference in C; such records never arise
on the traces considered and the state is returned unchanged. -/
def leaveRecord (tx : Nat) (committed : Bool) (reg : Region) (r : Record) : Region :=
  match r with
  | .read seg off sz =>
      if committed then reg else
        match reg.allocs seg with
        | none => reg
        | some sn =>
            let lo := off / reg.align
            let n := sz / reg.align
            setSeg reg seg { sn with aset := andRange sn.aset lo n (compl64 (2 ^ tx)) }
  | .write seg off sz =>
      match reg.allocs seg with
      | none => reg
      | some sn =>
          if committed then setSeg reg seg { sn with written := true }
          else
            let lo := off / reg.align
            let n := sz / reg.align
            setSeg reg seg { sn with
              rw := copyRange sn.rw sn.ro lo n,
              aset := andRange sn.aset lo n (compl64 (WRITTEN &&& 2 ^ tx)) }
  | .alloc seg => if committed then reg else markFreed reg seg
  | .free seg => if committed then markFreed reg seg else reg

/-- Walk of the whole operation history of a transaction during
batcher_leave (src/371274/batcher.c lines 109-188), head to tail, followed by
clearing the history entry (every record is freed as it is processed). -/
def processLog (reg : Region) (tx : Nat) (committed : Bool) : Region :=
  let reg1 := (reg.history tx).foldl (leaveRecord tx committed) reg
  { reg1 with history := updFn reg1.history tx [] }

/-- End-of-epoch treatment of one segment slot (src/371274/batcher.c lines
199-250): a freed segment is deallocated and its id pushed back on the stack;
otherwise a written segment has its read/write copy installed as the new
read-only copy, and in either surviving case all access sets are zeroed. -/
def eoeSeg (reg : Region) (i : Nat) : Region :=
  match reg.allocs i with
  | none => reg
  | some sn =>
      if sn.freed then
        { reg with
          top := reg.top - 1,
          segment_id := updFn reg.segment_id (reg.top - 1) i,
          allocs := updFn reg.allocs i none }
      else if sn.written then
        setSeg reg i { sn with ro := copyRange sn.ro sn.rw 0 sn.numWords
                               written := false
                               aset := fun _ => 0 }
      else
        setSeg reg i { sn with aset := fun _ => 0 }

/-- End-of-epoch procedure run by the last transaction to leave
(src/371274/batcher.c lines 196-258): sweep all segment slots, clear the
history table, bump the epoch and reinitialize the admission counters. -/
def endOfEpoch (reg : Region) : Region :=
  let reg1 := (List.range' FIRST_SEG (MAX_SEG - FIRST_SEG)).foldl eoeSeg reg
  { reg1 with
    history := fun _ => [],
    batcher := { counter := reg1.batcher.counter + 1, rw_tx := 0, ro_tx := MAX_RW_TX,
                 remaining := reg1.batcher.blocked, blocked := 0 } }

/-- Region-level part of batcher_leave before the epoch-boundary check: the
leaving transaction's history walk (read/write transactions only; read-only
ids have no history) followed by the decrement of the outstanding counter. -/
def leaveReg (reg : Region) (tx : Nat) (committed : Bool) : Region :=
  let reg1 := if tx < MAX_RW_TX then processLog reg tx committed else reg
  { reg1 with batcher := { reg1.batcher with remaining := reg1.batcher.remaining - 1 } }

/-- batcher_leave (src/371274/batcher.c lines 101-261): process the leaving
transaction's history, decrement the outstanding counter and, when it reaches
zero, run the end-of-epoch procedure and release the parked transactions into
the new epoch (ghost: they become the active cohort). -/
def sysLeave (s : Sys) (tx : Nat) (committed : Bool) : Sys :=
  if (leaveReg s.reg tx committed).batcher.remaining = 0 then
    { reg := endOfEpoch (leaveReg s.reg tx committed)
      active := s.blockedTx
      blockedTx := [] }
  else
    { reg := leaveReg s.reg tx committed
      active := s.active.erase tx
      blockedTx := s.blockedTx }

/-- batcher_enter (src/371274/batcher.c lines 60-99).  Returns the assigned
transaction id, or none for the rejection path (invalid_tx), which changes no
batcher state.  When the epoch is empty the caller runs immediately with id 0
(read/write) or MAX_RW_TX (read-only) without touching rw_tx or ro_tx; any
other admitted caller takes the next id, increments blocked and parks until
the next epoch (ghost: it joins blockedTx). -/
def sysEnter (s : Sys) (is_ro : Bool) : Option Nat × Sys :=
  let b := s.reg.batcher
  if b.remaining = 0 then
    let tx := if is_ro then MAX_RW_TX else 0
    (some tx, { s with active := tx :: s.active
                       reg := { s.reg with batcher := { b with remaining := 1 } } })
  else if is_ro then
    (some b.ro_tx,
     { s with blockedTx := b.ro_tx :: s.blockedTx
              reg := { s.reg with batcher := { b with ro_tx := b.ro_tx + 1
                                                      blocked := b.blocked + 1 } } })
  else if MAX_RW_TX ≤ b.rw_tx then
    (none, s)
  else
    (some b.rw_tx,
     { s with blockedTx := b.rw_tx :: s.blockedTx
              reg := { s.reg with batcher := { b with rw_tx := b.rw_tx + 1
                                                      blocked := b.blocked + 1 } } })

/-- tm_read (src/371274/tm.c lines 236-288) on a decoded (segment, byte
offset, byte size) source range.  Result: whether the transaction continues,
the words copied into the private target, and the new state.  none models the
undefined behaviours the source does not guard against (unregistered segment,
out-of-bounds range).  A read-only transaction copies from the read-only copy
and touches nothing; a read/write transaction checks each word for conflict,
ors its pattern into the access sets, copies from the read/write copy and
prepends a READ record, or aborts via batcher_leave. -/
def sysRead (s : Sys) (tx seg off sz : Nat) : Option (Bool × List Nat × Sys) :=
  match s.reg.allocs seg with
  | none => none
  | some sn =>
      let lo := off / s.reg.align
      let n := sz / s.reg.align
      if lo + n ≤ sn.numWords then
        if MAX_RW_TX ≤ tx then
          some (true, readSlice sn.ro lo n, s)
        else
          let P := 2 ^ tx
          if (List.range n).any (fun j => readConflictAt (sn.aset (lo + j)) P) then
            some (false, [], sysLeave s tx false)
          else
            let reg' := setSeg s.reg seg { sn with aset := orRange sn.aset lo n P }
            let reg'' := { reg' with
                           history := updFn reg'.history tx (Record.read seg off sz :: reg'.history tx) }
            some (true, readSlice sn.rw lo n, { s with reg := reg'' })
      else none

/-- Word indices whose per-word access-set lock tm_read acquires, following
the lock/release structure of src/371274/tm.c lines 255-281: none for a
read-only transaction, the prefix up to and including the first conflicting
word on an abort, the whole range on success. -/
def tmReadLocks (s : Sys) (tx seg off sz : Nat) : List Nat :=
  match s.reg.allocs seg with
  | none => []
  | some sn =>
      let lo := off / s.reg.align
      let n := sz / s.reg.align
      if MAX_RW_TX ≤ tx then []
      else
        let P := 2 ^ tx
        match (List.range n).find? (fun j => readConflictAt (sn.aset (lo + j)) P) with
        | some j => (List.range (j + 1)).map (lo + ·)
        | none => (List.range n).map (lo + ·)

/-- tm_write (src/371274/tm.c lines 298-352) on a decoded target range, with
the source buffer given word by word (src j is the word written to word
index lo + j).  Checks each word with the conflict test of line 316, then
sets WRITTEN plus the transaction's pattern in the access sets, copies the
source into the read/write copy and prepends a WRITE record; a conflict
aborts via batcher_leave.  none models the unguarded undefined behaviours
(unregistered segment, out-of-bounds range, and a transaction id outside the
read/write range, for which the C shift is already undefined or corrupts the
WRITTEN bit). -/
def sysWrite (s : Sys) (tx : Nat) (src : Nat → Nat) (seg off sz : Nat) : Option (Bool × Sys) :=
  if MAX_RW_TX ≤ tx then none else
  match s.reg.allocs seg with
  | none => none
  | some sn =>
      let lo := off / s.reg.align
      let n := sz / s.reg.align
      if lo + n ≤ sn.numWords then
        let P := 2 ^ tx
        if (List.range n).any (fun j => writeConflictAt (sn.aset (lo + j)) P) then
          some (false, sysLeave s tx false)
        else
          let reg' := setSeg s.reg seg
            { sn with aset := orRange sn.aset lo n (WRITTEN ||| P),
                      rw := writeRange sn.rw lo n src }
          let reg'' := { reg' with
                         history := updFn reg'.history tx (Record.write seg off sz :: reg'.history tx) }
          some (true, { s with reg := reg'' })
      else none

/-- Result of tm_alloc (alloc_t of the public interface). -/
inductive AllocRes where
  | success (seg : Nat)
  | nomem
  | overflow
deriving DecidableEq

/-- A freshly initialized segment node of the given word count: flags clear,
access sets zero, both copies zeroed (src/371274/tm.c lines 85-104). -/
def mkSeg (nw : Nat) : Seg :=
  { numWords := nw, freed := false, written := false,
    aset := fun _ => 0, ro := fun _ => 0, rw := fun _ => 0 }

/-- alloc_segment for a non-first segment (src/371274/tm.c lines 54-108),
with the host allocator abstracted by the allocOk flag.  Pops the next free
segment id; on allocator failure the popped id is not pushed back (lines
80-83 return NOMEM directly after top was already incremented).  On success
the new segment is registered with zeroed access sets and both copies zeroed. -/
def alloc_segment (reg : Region) (szBytes : Nat) (allocOk : Bool) : AllocRes × Region :=
  if MAX_SEG ≤ reg.top then (.overflow, reg)
  else
    let segId := reg.segment_id reg.top
    let reg1 := { reg with top := reg.top + 1 }
    if allocOk then
      (.success segId, setSeg reg1 segId (mkSeg (szBytes / reg.align)))
    else (.nomem, reg1)

/-- tm_alloc (src/371274/tm.c lines 361-384): allocate a segment, abort the
transaction on either failure, otherwise prepend an ALLOC record.  none
models the undefined history access of a read-only transaction id. -/
def sysAlloc (s : Sys) (tx szBytes : Nat) (allocOk : Bool) : Option (AllocRes × Sys) :=
  if MAX_RW_TX ≤ tx then none else
  match alloc_segment s.reg szBytes allocOk with
  | (.nomem, reg1) => some (.nomem, sysLeave { s with reg := reg1 } tx false)
  | (.overflow, reg1) => some (.overflow, sysLeave { s with reg := reg1 } tx false)
  | (.success segId, reg1) =>
      let reg2 := { reg1 with
                    history := updFn reg1.history tx (Record.alloc segId :: reg1.history tx) }
      some (.success segId, { s with reg := reg2 })

/-- tm_free (src/371274/tm.c lines 392-416) on the opaque handle: the segment
id is the uint8_t cast of the handle shifted right by SHIFT.  Freeing the
first segment aborts the transaction; any other handle only prepends a FREE
record (deallocation is deferred to the end of the epoch).  none models the
undefined history access of a read-only transaction id. -/
def tm_free (s : Sys) (tx hdl : Nat) : Option (Bool × Sys) :=
  if MAX_RW_TX ≤ tx then none else
  let seg := (hdl >>> SHIFT) % 256
  if seg = FIRST_SEG then some (false, sysLeave s tx false)
  else
    some (true, { s with reg := { s.reg with
      history := updFn s.reg.history tx (Record.free seg :: s.reg.history tx) } })

/-- tm_create (src/371274/tm.c lines 120-159) modulo the host allocator: a
fresh batcher, the identity id stack with top already past the first
segment's id (alloc_segment with first = true sets top to FIRST_SEG + 1), the
first segment registered with both copies zeroed, and empty histories. -/
def tm_create (szBytes align : Nat) : Sys :=
  let firstSeg : Seg := mkSeg (szBytes / align)
  { reg := { align := align,
             batcher := { counter := 0, rw_tx := 0, ro_tx := MAX_RW_TX, remaining := 0, blocked := 0 },
             top := FIRST_SEG + 1,
             segment_id := fun i => i,
             allocs := updFn (fun _ => none) FIRST_SEG (some firstSeg),
             history := fun _ => [] },
    active := [],
    blockedTx := [] }

/-- One sequentially consistent step of the system: a public API call by some
thread.  Operations other than enter require the calling transaction to be
active in the current epoch; the hypotheses of the form f s = some r restrict
steps to the defined behaviours of the C source. -/
inductive Step : Sys → Sys → Prop where
  | enter (s : Sys) (is_ro : Bool) : Step s (sysEnter s is_ro).2
  | read (s : Sys) (tx seg off sz : Nat) (ok : Bool) (out : List Nat) (s' : Sys)
      (hmem : tx ∈ s.active) (heq : sysRead s tx seg off sz = some (ok, out, s')) :
      Step s s'
  | write (s : Sys) (tx : Nat) (src : Nat → Nat) (seg off sz : Nat) (ok : Bool) (s' : Sys)
      (hmem : tx ∈ s.active) (heq : sysWrite s tx src seg off sz = some (ok, s')) :
      Step s s'
  | alloc (s : Sys) (tx szBytes : Nat) (allocOk : Bool) (res : AllocRes) (s' : Sys)
      (hmem : tx ∈ s.active) (heq : sysAlloc s tx szBytes allocOk = some (res, s')) :
      Step s s'
  | fre (s : Sys) (tx hdl : Nat) (ok : Bool) (s' : Sys)
      (hmem : tx ∈ s.active) (heq : tm_free s tx hdl = some (ok, s')) :
      Step s s'
  | endTx (s : Sys) (tx : Nat) (hmem : tx ∈ s.active) : Step s (sysLeave s tx true)

/-- States reachable from a freshly created region by API steps. -/
inductive Reach : Sys → Prop where
  | init (szBytes align : Nat) : Reach (tm_create szBytes align)
  | step {s s' : Sys} : Reach s → Step s s' → Reach s'

/-! Concrete executions used to evaluate the code on specific inputs.
The base region has two 8-byte words (size 16, alignment 8), all zero. -/

/-- Fresh two-word region. -/
def st0 : Sys := tm_create 16 8

/-- One read/write transaction admitted into the empty epoch: it gets id 0
and runs immediately. -/
def st1 : Sys := (sysEnter st0 false).2

/-- Three further read/write admissions while transaction 0 runs; they get
ids 0, 1, 2 and park for the next epoch. -/
def st2 : Sys := (sysEnter st1 false).2

/-- Second parked admission. -/
def st3 : Sys := (sysEnter st2 false).2

/-- Third parked admission. -/
def st4 : Sys := (sysEnter st3 false).2

/-- Transaction 0 commits; it is the last to leave, so the epoch boundary
runs and the parked transactions 0, 1, 2 become the active cohort. -/
def st5 : Sys := sysLeave st4 0 true

/-- Transaction 1 writes word 0 of the first segment (8 bytes at offset 0,
value 5). -/
def st6 : Sys := match sysWrite st5 1 (fun _ => 5) 1 0 8 with
  | some (_, t) => t
  | none => st5

/-- Transaction 2 then writes the same word (value 9); the conflict test of
tm.c line 316 only inspects bit 0 of the access set, so this write is
admitted although transaction 1 already wrote the word. -/
def st7 : Sys := match sysWrite st6 2 (fun _ => 9) 1 0 8 with
  | some (_, t) => t
  | none => st6

/-- Transaction 1 commits from st7. -/
def st8 : Sys := sysLeave st7 1 true

/-- Transaction 0 commits from st8. -/
def st9 : Sys := sysLeave st8 0 true

/-- Transaction 2 commits from st9; it is the last to leave, so the
end-of-epoch procedure installs the written segment's rw copy as the new
snapshot. -/
def st10 : Sys := sysLeave st9 2 true

/-- From st6, transaction 1 attempts to free the first segment, which aborts
it: batcher_leave runs with committed = false and rolls its write back. -/
def stF : Sys := match tm_free st6 1 (1 <<< SHIFT) with
  | some (_, t) => t
  | none => st6

/-- From st1, transaction 0 writes word 0 (value 7). -/
def stW : Sys := match sysWrite st1 0 (fun _ => 7) 1 0 8 with
  | some (_, t) => t
  | none => st1

/-- From st1, transaction 0 calls tm_alloc and the host allocator fails: the
popped segment id 2 is lost, the transaction aborts and the epoch ends. -/
def stN : Sys := match sysAlloc st1 0 24 false with
  | some (_, t) => t
  | none => st1

/-- Sixty-four read/write admissions from a fresh region: the empty-epoch
fast path admits one without touching rw_tx, then 63 more fill rw_tx. -/
def stE : Sys := (fun s => (sysEnter s false).2)^[64] st0

/-- Number of read/write transactions admitted and not yet left: the active
ones of the current epoch plus the parked ones, restricted to read/write
ids. -/
def rwInFlight (s : Sys) : Nat :=
  ((s.active ++ s.blockedTx).filter (fun t => t < MAX_RW_TX)).length

/-- A segment id sits on the live part of the id stack. -/
def onStack (reg : Region) (j : Nat) : Prop :=
  ∃ k, k < MAX_SEG ∧ reg.top ≤ k ∧ reg.segment_id k = j

instance (reg : Region) (j : Nat) : Decidable (onStack reg j) := by
  unfold onStack; infer_instance

/-- Segment-id conservation as claimed: every id in 1..MAX_SEG-1 is exactly
one of on-stack or occupied. -/
def idConservation (reg : Region) : Prop :=
  ∀ j, j < MAX_SEG → 1 ≤ j →
    (onStack reg j ∧ (reg.allocs j).isNone) ∨ (¬ onStack reg j ∧ (reg.allocs j).isSome)

instance (reg : Region) : Decidable (idConservation reg) := by
  unfold idConservation; infer_instance

/-- A record of the operation log covers word w of segment i: it is a WRITE
record whose word range, recomputed exactly as batcher_leave recomputes it,
contains w. -/
def coversW (align : Nat) (i w : Nat) (r : Record) : Prop :=
  match r with
  | .write seg off sz => seg = i ∧ off / align ≤ w ∧ w < off / align + sz / align
  | _ => False

instance (align i w : Nat) (r : Record) : Decidable (coversW align i w r) := by
  unfold coversW; cases r <;> infer_instance

/-- Number of occupied segment slots. -/
def occCount (reg : Region) : Nat :=
  ((Finset.range MAX_SEG).filter (fun i => (reg.allocs i).isSome)).card

/-- The two copies of slot i agree on every word (vacuous for empty slots). -/
def goodSlot (reg : Region) (i : Nat) : Prop :=
  ∀ sn, reg.allocs i = some sn → ∀ w, w < sn.numWords → sn.rw w = sn.ro w

/-- Every word difference between the two copies of a live segment is
accounted for by its written flag. -/
def writtenOnly (reg : Region) : Prop :=
  ∀ i sn, reg.allocs i = some sn → ∀ w, w < sn.numWords →
    sn.rw w ≠ sn.ro w → sn.written = true

/-- Inductive invariant of reachable states, used to settle the claims that
quantify over system runs. -/
structure Inv (s : Sys) : Prop where
  remAct : s.reg.batcher.remaining = s.active.length
  blockedLen : s.reg.batcher.blocked = s.blockedTx.length
  rwCount : s.reg.batcher.rw_tx = (s.blockedTx.filter (fun t => t < MAX_RW_TX)).length
  rwLe : s.reg.batcher.rw_tx ≤ MAX_RW_TX
  quiet : s.reg.batcher.remaining = 0 → s.blockedTx = []
  roLe : MAX_RW_TX ≤ s.reg.batcher.ro_tx
  blkRw : ∀ t ∈ s.blockedTx, t < MAX_RW_TX → t < s.reg.batcher.rw_tx
  blkRo : ∀ t ∈ s.blockedTx, MAX_RW_TX ≤ t → t < s.reg.batcher.ro_tx
  blkNodup : s.blockedTx.Nodup
  actNodup : s.active.Nodup
  histActive : ∀ tx, s.reg.history tx ≠ [] → tx ∈ s.active ∧ tx < MAX_RW_TX
  stackDisj : ∀ k, s.reg.top ≤ k → k < MAX_SEG → s.reg.allocs (s.reg.segment_id k) = none
  stackVals : ∀ k, 1 ≤ k → k < MAX_SEG → 1 ≤ s.reg.segment_id k ∧ s.reg.segment_id k < MAX_SEG
  stackNodup : ∀ k1 k2, s.reg.top ≤ k1 → k1 < k2 → k2 < MAX_SEG →
    s.reg.segment_id k1 ≠ s.reg.segment_id k2
  occLe : occCount s.reg + 1 ≤ s.reg.top
  slot0 : s.reg.allocs 0 = none
  slotHi : ∀ i, MAX_SEG ≤ i → s.reg.allocs i = none
  dual : ∀ i sn, s.reg.allocs i = some sn → ∀ w, w < sn.numWords →
    sn.rw w ≠ sn.ro w → sn.written = true ∨
      ∃ tx ∈ s.active, ∃ r ∈ s.reg.history tx, coversW s.reg.align i w r

/-- What every step guarantees: the invariant is preserved; a step that does
not cross an epoch boundary (counter unchanged) keeps every live segment
alive with its read-only copy and word count intact; a step that crosses a
boundary (counter bumped) leaves every surviving segment with its two copies
in agreement. -/
def StepProps (s s' : Sys) : Prop :=
  Inv s' ∧
  (s'.reg.batcher.counter = s.reg.batcher.counter →
     ∀ i sn, s.reg.allocs i = some sn → ∃ sn', s'.reg.allocs i = some sn' ∧
       sn'.ro = sn.ro ∧ sn'.numWords = sn.numWords) ∧
  (s'.reg.batcher.counter = s.reg.batcher.counter + 1 →
     ∀ i sn, s'.reg.allocs i = some sn → ∀ w, w < sn.numWords → sn.rw w = sn.ro w)

/-! Reachability of the concrete executions. -/

theorem reach_st1 : Reach st1 :=
  Reach.step (Reach.init 16 8) (Step.enter st0 false)

theorem reach_st4 : Reach st4 := by
  have h2 : Reach st2 := Reach.step reach_st1 (Step.enter st1 false)
  have h3 : Reach st3 := Reach.step h2 (Step.enter st2 false)
  exact Reach.step h3 (Step.enter st3 false)

theorem reach_st5 : Reach st5 :=
  Reach.step reach_st4 (Step.endTx st4 0 (by decide))

theorem reach_st6 : Reach st6 :=
  Reach.step reach_st5 (Step.write st5 1 (fun _ => 5) 1 0 8 true st6 (by decide) rfl)

theorem reach_st7 : Reach st7 :=
  Reach.step reach_st6 (Step.write st6 2 (fun _ => 9) 1 0 8 true st7 (by decide) rfl)

theorem reach_st9 : Reach st9 := by
  have h8 : Reach st8 := Reach.step reach_st7 (Step.endTx st7 1 (by decide))
  exact Reach.step h8 (Step.endTx st8 0 (by decide))

theorem reach_stF : Reach stF :=
  Reach.step reach_st6 (Step.fre st6 1 (1 <<< SHIFT) false stF (by decide) rfl)

theorem reach_stW : Reach stW :=
  Reach.step reach_st1 (Step.write st1 0 (fun _ => 7) 1 0 8 true stW (by decide) rfl)

theorem reach_stN : Reach stN :=
  Reach.step reach_st1 (Step.alloc st1 0 24 false .nomem stN (by decide) rfl)

theorem reach_enterIter (n : Nat) (s : Sys) (h : Reach s) :
    Reach ((fun s => (sysEnter s false).2)^[n] s) := by
  induction n with
  | zero => exact h
  | succ m ih =>
      rw [Function.iterate_succ_apply']
      exact Reach.step ih (Step.enter _ false)

theorem reach_stE : Reach stE := reach_enterIter 64 st0 (Reach.init 16 8)

/-- C1.  Atomic rollback on abort: the claim states that after an aborted
transaction's leave returns, the rw copy equals the ro copy on every recorded
WRITE range (part a) and every access-set word of a recorded READ or WRITE
range has the transaction's bit P cleared, WRITE ranges also the WRITTEN bit
(part b).  Evaluating the code at the failing input: transaction 1 writes
word 0, then aborts (attempting to free the first segment) while two other
transactions remain in the epoch.  After its leave, part (a) holds (rw 0 =
ro 0), but part (b) fails: the access set still carries WRITTEN and P,
because batcher_leave line 160 masks with the complement of
(WRITTEN &&& P) = 0, that is with all ones — the source wrote & where the
documented intent (the commented-out reset at lines 152-158, and the spec)
requires clearing WRITTEN ||| P. -/
theorem c1_abort_rollback_leaves_aset_bits :
    st6.reg.history 1 = [Record.write 1 0 8] ∧
    tm_free st6 1 (1 <<< SHIFT) = some (false, stF) ∧
    Reach stF ∧
    ∃ sn, stF.reg.allocs 1 = some sn ∧
      sn.rw 0 = sn.ro 0 ∧
      sn.aset 0 = WRITTEN ||| 2 ^ 1 := by
  refine ⟨by decide, rfl, reach_stF, ?_⟩
  exact ⟨_, rfl, by decide, by decide⟩

/-- C2.  Write conflict detection: the claim states that tm_write aborts iff
another transaction wrote or read some word of the range, and in particular
that a transaction repeating a write to words only it has touched never
conflicts with itself.  Evaluating the code at the failing input: from a
fresh region, transaction 0 writes word 0 (succeeds; afterwards the word's
access set carries only WRITTEN and transaction 0's own bit), then repeats
the same write and is aborted.  The conflict expression of tm.c line 316
parses as bitmap & ~WRITTEN & (~pattern > 0), i.e. it tests bit 0 of the
access set, so transaction 0 conflicts with itself (and any other
transaction is never checked against the actual pattern). -/
theorem c2_write_self_conflict_bug :
    Reach stW ∧
    sysWrite st1 0 (fun _ => 7) 1 0 8 = some (true, stW) ∧
    (∃ sn, stW.reg.allocs 1 = some sn ∧ sn.aset 0 = WRITTEN ||| 2 ^ 0 ∧ sn.rw 0 = 7) ∧
    (sysWrite stW 0 (fun _ => 7) 1 0 8).map Prod.fst = some false := by
  refine ⟨reach_stW, rfl, ⟨_, rfl, by decide, by decide⟩, by decide⟩

/-- C3.  At-most-one-writer invariant: the claim states that in every
reachable state, a word whose WRITTEN bit is set carries the bit of exactly
one transaction.  Refuted on the code: in the reachable state st7,
transactions 1 and 2 have both been admitted as writers of word 0 of the
first segment (transaction 2's write passed the conflict test of tm.c line
316 because bit 0 of the access set was clear), so the word's access set
carries WRITTEN together with two distinct transaction bits. -/
theorem c3_two_writers_reachable :
    Reach st7 ∧
    ∃ sn, st7.reg.allocs 1 = some sn ∧
      sn.aset 0 = WRITTEN ||| 2 ^ 1 ||| 2 ^ 2 ∧
      WRITTEN ≤ sn.aset 0 ∧ sn.aset 0 &&& 2 ^ 1 ≠ 0 ∧ sn.aset 0 &&& 2 ^ 2 ≠ 0 := by
  exact ⟨reach_st7, _, rfl, by decide, by decide, by decide, by decide⟩

/-- C7.  Segment-id conservation: the claim states that after every
end-of-epoch procedure, including epochs in which an alloc popped an id and
then the allocator failed, the stacked ids plus the occupied slots partition
1..MAX_SEG-1.  Evaluating the code at the failing input: transaction 0 calls
tm_alloc, the allocator fails after id 2 was popped
(tm.c lines 80-83 return NOMEM without pushing the id back), the transaction
aborts and the epoch ends.  Afterwards id 2 is neither on the live stack nor
an occupied slot, so the partition property fails. -/
theorem c7_lost_segment_id :
    sysAlloc st1 0 24 false = some (.nomem, stN) ∧
    Reach stN ∧
    stN.reg.allocs 2 = none ∧
    ¬ onStack stN.reg 2 ∧
    ¬ idConservation stN.reg := by
  refine ⟨rfl, reach_stN, rfl, by decide, by decide⟩

/-- C9.  Read-your-own-writes: the claim states that after a successful
tm_write by a transaction, a later tm_read of the same range by the same
transaction with no intervening write by it always succeeds and returns the
written bytes.  Evaluating the code at the failing input: transaction 2's
write of word 0 succeeds (admitted by the buggy conflict test of tm.c line
316 although transaction 1 had already written the word), transaction 2
performs no further write (its log holds exactly that one record), and its
read of the same range is aborted, because the access set is
WRITTEN ||| 2^1 ||| 2^2, which the read test of tm.c lines 260-261 rejects. -/
theorem c9_read_own_write_bug :
    Reach st7 ∧
    sysWrite st6 2 (fun _ => 9) 1 0 8 = some (true, st7) ∧
    st7.reg.history 2 = [Record.write 1 0 8] ∧
    (sysRead st7 2 1 0 8).map (fun r => r.1) = some false := by
  refine ⟨reach_st7, rfl, by decide, by decide⟩

/-- C5 counterexample.  The claim states that tm_read aborts iff some word of
the range has an access set A with A ≥ WRITTEN and A &&& P = 0.  In the
reachable state st7, word 0's access set is WRITTEN ||| 2^1 ||| 2^2, so for
transaction 1 (P = 2^1) the claim's condition is false on every word of the
range — A &&& P ≠ 0 — and the claim predicts a successful read; but the code
(tm.c lines 260-261) accepts a written word only when the access set is
exactly WRITTEN ||| P, and aborts transaction 1. -/
theorem c5_counterexample :
    Reach st7 ∧
    (∃ sn, st7.reg.allocs 1 = some sn ∧
       WRITTEN ≤ sn.aset 0 ∧ sn.aset 0 &&& 2 ^ 1 ≠ 0) ∧
    (sysRead st7 1 1 0 8).map (fun r => r.1) = some false := by
  refine ⟨reach_st7, ⟨_, rfl, by decide, by decide⟩, by decide⟩

/-- C6 counterexample.  The claim states that begin returns INVALID iff
exactly MAX_RW_TX = 63 read/write transactions have been admitted and not
yet left in the current epoch.  In the reachable state stE, 64 read/write
transactions have been admitted and none has left (one running — admitted by
the empty-epoch fast path of batcher.c lines 70-75, which does not touch
rw_tx — and 63 parked), and the next read/write begin is rejected; under the
alternative reading that counts only the running cohort, that count is 1, so
the rejection matches neither reading's 63. -/
theorem c6_counterexample :
    Reach stE ∧
    (sysEnter stE false).1 = none ∧
    rwInFlight stE = 64 ∧
    (stE.active.filter (fun t => t < MAX_RW_TX)).length = 1 := by
  refine ⟨reach_stE, by decide, by decide, by decide⟩

theorem readConflictAt_iff (a p : Nat) :
    readConflictAt a p = true ↔ WRITTEN ≤ a ∧ a ≠ WRITTEN ||| p := by
  simp only [readConflictAt, decide_eq_true_eq, not_or, Nat.not_lt]
  exact and_comm

/-- C5 amended.  Read conflict detection, as the code decides it: for an
admitted read/write transaction tx and an in-bounds word range, tm_read
returns false (and aborts tx via batcher_leave) iff some word of the range
has an access set A with WRITTEN ≤ A and A ≠ WRITTEN ||| P — the code
accepts a written word only when its access set is exactly the caller's own
WRITTEN ||| P (tm.c lines 260-261), which is weaker than the claim's
condition A &&& P = 0 on states with more than one recorded writer.
Otherwise it copies the requested words from the rw copy, ors P into each
access set of the range, prepends a READ record, and returns true. -/
theorem c5_read_conflict_amended (s : Sys) (tx seg off sz : Nat) (sn : Seg)
    (hseg : s.reg.allocs seg = some sn) (htx : tx < MAX_RW_TX)
    (hb : off / s.reg.align + sz / s.reg.align ≤ sn.numWords) :
    (((sysRead s tx seg off sz).map (fun r => r.1) = some false) ↔
      (∃ j, j < sz / s.reg.align ∧
        WRITTEN ≤ sn.aset (off / s.reg.align + j) ∧
        sn.aset (off / s.reg.align + j) ≠ WRITTEN ||| 2 ^ tx)) ∧
    (((sysRead s tx seg off sz).map (fun r => r.1) = some false) →
       sysRead s tx seg off sz = some (false, [], sysLeave s tx false)) ∧
    ((¬ ∃ j, j < sz / s.reg.align ∧
        WRITTEN ≤ sn.aset (off / s.reg.align + j) ∧
        sn.aset (off / s.reg.align + j) ≠ WRITTEN ||| 2 ^ tx) →
       sysRead s tx seg off sz = some (true,
         readSlice sn.rw (off / s.reg.align) (sz / s.reg.align),
         { s with reg := { s.reg with
             allocs := updFn s.reg.allocs seg (some { sn with
               aset := orRange sn.aset (off / s.reg.align) (sz / s.reg.align) (2 ^ tx) })
             history := updFn s.reg.history tx
               (Record.read seg off sz :: s.reg.history tx) } })) := by
  have hany : ((List.range (sz / s.reg.align)).any
      (fun j => readConflictAt (sn.aset (off / s.reg.align + j)) (2 ^ tx)) = true) ↔
      (∃ j, j < sz / s.reg.align ∧
        WRITTEN ≤ sn.aset (off / s.reg.align + j) ∧
        sn.aset (off / s.reg.align + j) ≠ WRITTEN ||| 2 ^ tx) := by
    simp only [List.any_eq_true, List.mem_range, readConflictAt_iff]
  simp only [sysRead, hseg]
  rw [if_pos hb, if_neg (Nat.not_le.mpr htx)]
  by_cases hc : (∃ j, j < sz / s.reg.align ∧
      WRITTEN ≤ sn.aset (off / s.reg.align + j) ∧
      sn.aset (off / s.reg.align + j) ≠ WRITTEN ||| 2 ^ tx)
  · rw [if_pos (hany.mpr hc)]
    refine ⟨by simpa using hc, fun _ => rfl, fun h => absurd hc h⟩
  · rw [if_neg (fun h => hc (hany.mp h))]
    refine ⟨by simpa using hc, by simp, fun _ => rfl⟩

/-- C5 amended witness: on a fresh region with transaction 0 admitted, a
one-word read at offset 0 has no conflicting word, so the iff's right side
is false and the read succeeds. -/
theorem c5_witness :
    st1.reg.allocs 1 = some (mkSeg 2) ∧ (0 : Nat) < MAX_RW_TX ∧
    (((sysRead st1 0 1 0 8).map (fun r => r.1) = some false) ↔
      (∃ j, j < (8 : Nat) / st1.reg.align ∧
        WRITTEN ≤ (mkSeg 2).aset ((0 : Nat) / st1.reg.align + j) ∧
        (mkSeg 2).aset ((0 : Nat) / st1.reg.align + j) ≠ WRITTEN ||| 2 ^ 0)) :=
  ⟨rfl, by decide,
   (c5_read_conflict_amended st1 0 1 0 8 (mkSeg 2) rfl (by decide) (by decide)).1⟩

/-- C8.  Free semantics: tm_free aborts the calling transaction exactly when
the handle's segment id (the uint8_t cast of the handle shifted by SHIFT)
equals FIRST_SEG, in which case it returns false after batcher_leave with
committed = false; on any other handle it returns true and its only effect
is to prepend a FREE record to the caller's log — no segment is deallocated
or modified (deallocation is deferred to the end of the epoch). -/
theorem c8_free_semantics (s : Sys) (tx hdl : Nat) (htx : tx < MAX_RW_TX) :
    ((hdl >>> SHIFT) % 256 = FIRST_SEG →
        tm_free s tx hdl = some (false, sysLeave s tx false)) ∧
    ((hdl >>> SHIFT) % 256 ≠ FIRST_SEG →
        tm_free s tx hdl = some (true,
          { s with reg := { s.reg with
              history := updFn s.reg.history tx
                (Record.free ((hdl >>> SHIFT) % 256) :: s.reg.history tx) } })) := by
  constructor <;> intro h <;> simp [tm_free, Nat.not_le.mpr htx, h]

/-- C8 witness: evaluating the two branches at transaction 0 on a fresh
region, with the first segment's handle and with segment 2's handle. -/
theorem c8_witness :
    tm_free st0 0 ((1 : Nat) <<< SHIFT) = some (false, sysLeave st0 0 false) ∧
    tm_free st0 0 ((2 : Nat) <<< SHIFT) = some (true,
      { st0 with reg := { st0.reg with
          history := updFn st0.reg.history 0
            (Record.free (((2 : Nat) <<< SHIFT >>> SHIFT) % 256) :: st0.reg.history 0) } }) :=
  ⟨(c8_free_semantics st0 0 ((1 : Nat) <<< SHIFT) (by decide)).1 (by decide),
   (c8_free_semantics st0 0 ((2 : Nat) <<< SHIFT) (by decide)).2 (by decide)⟩

/-! Toolbox lemmas about the embedding's primitive operations. -/

theorem updFn_same {α : Type} (f : Nat → α) (i : Nat) (v : α) : updFn f i v i = v := by
  simp [updFn]

theorem updFn_ne {α : Type} (f : Nat → α) (i : Nat) (v : α) {j : Nat} (h : j ≠ i) :
    updFn f i v j = f j := by
  simp [updFn, h]

theorem foldl_stable {α β γ : Type} (step : α → β → α) (g : α → γ)
    (h : ∀ a b, g (step a b) = g a) : ∀ (l : List β) (a : α), g (List.foldl step a l) = g a := by
  intro l
  induction l with
  | nil => intro a; rfl
  | cons b l ih => intro a; rw [List.foldl_cons, ih, h]

theorem setSeg_allocs_ne (reg : Region) (seg : Nat) (sn : Seg) {x : Nat} (h : x ≠ seg) :
    (setSeg reg seg sn).allocs x = reg.allocs x := by
  simp [setSeg, updFn_ne _ _ _ h]

theorem leaveRecord_align (tx : Nat) (c : Bool) (reg : Region) (r : Record) :
    (leaveRecord tx c reg r).align = reg.align := by
  cases r <;> simp only [leaveRecord, setSeg, markFreed] <;>
    repeat' first | split | rfl

theorem leaveRecord_history (tx : Nat) (c : Bool) (reg : Region) (r : Record) :
    (leaveRecord tx c reg r).history = reg.history := by
  cases r <;> simp only [leaveRecord, setSeg, markFreed] <;>
    repeat' first | split | rfl

theorem leaveRecord_batcher (tx : Nat) (c : Bool) (reg : Region) (r : Record) :
    (leaveRecord tx c reg r).batcher = reg.batcher := by
  cases r <;> simp only [leaveRecord, setSeg, markFreed] <;>
    repeat' first | split | rfl

theorem leaveRecord_top (tx : Nat) (c : Bool) (reg : Region) (r : Record) :
    (leaveRecord tx c reg r).top = reg.top := by
  cases r <;> simp only [leaveRecord, setSeg, markFreed] <;>
    repeat' first | split | rfl

theorem leaveRecord_segment_id (tx : Nat) (c : Bool) (reg : Region) (r : Record) :
    (leaveRecord tx c reg r).segment_id = reg.segment_id := by
  cases r <;> simp only [leaveRecord, setSeg, markFreed] <;>
    repeat' first | split | rfl

/-- Record processing neither creates nor removes segment slots, and it
preserves every surviving segment's read-only copy and word count. -/
theorem leaveRecord_pres (tx : Nat) (c : Bool) (reg : Region) (r : Record) (x : Nat) :
    ((leaveRecord tx c reg r).allocs x).isSome = (reg.allocs x).isSome ∧
    (∀ sn, reg.allocs x = some sn → ∃ sn', (leaveRecord tx c reg r).allocs x = some sn' ∧
        sn'.ro = sn.ro ∧ sn'.numWords = sn.numWords) := by
  have base : ∀ (seg : Nat) (sn0 sn1 : Seg), reg.allocs seg = some sn0 →
      sn1.ro = sn0.ro → sn1.numWords = sn0.numWords →
      ((setSeg reg seg sn1).allocs x).isSome = (reg.allocs x).isSome ∧
      (∀ sn, reg.allocs x = some sn → ∃ sn', (setSeg reg seg sn1).allocs x = some sn' ∧
          sn'.ro = sn.ro ∧ sn'.numWords = sn.numWords) := by
    intro seg sn0 sn1 hseg hro hnw
    by_cases hx : x = seg
    · subst hx
      refine ⟨by simp [setSeg, updFn_same, hseg], ?_⟩
      intro sn hsn
      rw [hseg] at hsn
      exact ⟨sn1, by simp [setSeg, updFn_same], by rw [hro, Option.some_inj.mp hsn],
             by rw [hnw, Option.some_inj.mp hsn]⟩
    · rw [setSeg_allocs_ne reg seg sn1 hx]
      exact ⟨rfl, fun sn hsn => ⟨sn, hsn, rfl, rfl⟩⟩
  have triv : ((reg.allocs x).isSome = (reg.allocs x).isSome ∧
      (∀ sn, reg.allocs x = some sn → ∃ sn', reg.allocs x = some sn' ∧
          sn'.ro = sn.ro ∧ sn'.numWords = sn.numWords)) :=
    ⟨rfl, fun sn hsn => ⟨sn, hsn, rfl, rfl⟩⟩
  cases r with
  | read seg off sz =>
      by_cases hcm : c
      · simpa [leaveRecord, hcm] using triv
      · simp only [leaveRecord, hcm, if_false, Bool.false_eq_true]
        cases hseg : reg.allocs seg with
        | none => exact triv
        | some sn0 => exact base seg sn0 _ hseg rfl rfl
  | write seg off sz =>
      cases hseg : reg.allocs seg with
      | none => simpa [leaveRecord, hseg] using triv
      | some sn0 =>
          by_cases hcm : c
          · simpa [leaveRecord, hseg, hcm] using
              base seg sn0 { sn0 with written := true } hseg rfl rfl
          · simpa [leaveRecord, hseg, hcm] using
              base seg sn0 { sn0 with
                rw := copyRange sn0.rw sn0.ro (off / reg.align) (sz / reg.align),
                aset := andRange sn0.aset (off / reg.align) (sz / reg.align)
                  (compl64 (WRITTEN &&& 2 ^ tx)) } hseg rfl rfl
  | alloc seg =>
      by_cases hcm : c
      · simpa [leaveRecord, hcm] using triv
      · simp only [leaveRecord, hcm, if_false, Bool.false_eq_true, markFreed]
        cases hseg : reg.allocs seg with
        | none => exact triv
        | some sn0 => exact base seg sn0 _ hseg rfl rfl
  | free seg =>
      by_cases hcm : c
      · simp only [leaveRecord, hcm, if_true, markFreed]
        cases hseg : reg.allocs seg with
        | none => exact triv
        | some sn0 => exact base seg sn0 _ hseg rfl rfl
      · simpa [leaveRecord, hcm] using triv

theorem foldl_leaveRecord_pres (tx : Nat) (c : Bool) (l : List Record) :
    ∀ (reg : Region) (x : Nat),
    ((l.foldl (leaveRecord tx c) reg).allocs x).isSome = (reg.allocs x).isSome ∧
    (∀ sn, reg.allocs x = some sn → ∃ sn', (l.foldl (leaveRecord tx c) reg).allocs x = some sn' ∧
        sn'.ro = sn.ro ∧ sn'.numWords = sn.numWords) := by
  induction l with
  | nil => exact fun reg x => ⟨rfl, fun sn h => ⟨sn, h, rfl, rfl⟩⟩
  | cons r l ih =>
      intro reg x
      rw [List.foldl_cons]
      refine ⟨?_, ?_⟩
      · rw [(ih (leaveRecord tx c reg r) x).1, (leaveRecord_pres tx c reg r x).1]
      · intro sn hsn
        obtain ⟨sn1, h1, hro1, hnw1⟩ := (leaveRecord_pres tx c reg r x).2 sn hsn
        obtain ⟨sn2, h2, hro2, hnw2⟩ := (ih _ x).2 sn1 h1
        exact ⟨sn2, h2, hro2.trans hro1, hnw2.trans hnw1⟩

theorem processLog_align (reg : Region) (tx : Nat) (c : Bool) :
    (processLog reg tx c).align = reg.align := by
  unfold processLog
  exact foldl_stable (leaveRecord tx c) Region.align (fun a b => leaveRecord_align tx c a b) _ reg

theorem processLog_top (reg : Region) (tx : Nat) (c : Bool) :
    (processLog reg tx c).top = reg.top := by
  unfold processLog
  exact foldl_stable (leaveRecord tx c) Region.top (fun a b => leaveRecord_top tx c a b) _ reg

theorem processLog_segment_id (reg : Region) (tx : Nat) (c : Bool) :
    (processLog reg tx c).segment_id = reg.segment_id := by
  unfold processLog
  exact foldl_stable (leaveRecord tx c) Region.segment_id
    (fun a b => leaveRecord_segment_id tx c a b) _ reg

theorem processLog_batcher (reg : Region) (tx : Nat) (c : Bool) :
    (processLog reg tx c).batcher = reg.batcher := by
  unfold processLog
  exact foldl_stable (leaveRecord tx c) Region.batcher
    (fun a b => leaveRecord_batcher tx c a b) _ reg

theorem processLog_history (reg : Region) (tx : Nat) (c : Bool) :
    (processLog reg tx c).history = updFn reg.history tx [] := by
  unfold processLog
  exact congrArg (fun h => updFn h tx [])
    (foldl_stable (leaveRecord tx c) Region.history
      (fun a b => leaveRecord_history tx c a b) _ reg)

theorem processLog_allocs_pres (reg : Region) (tx : Nat) (c : Bool) (x : Nat) :
    ((processLog reg tx c).allocs x).isSome = (reg.allocs x).isSome ∧
    (∀ sn, reg.allocs x = some sn → ∃ sn', (processLog reg tx c).allocs x = some sn' ∧
        sn'.ro = sn.ro ∧ sn'.numWords = sn.numWords) := by
  unfold processLog
  exact foldl_leaveRecord_pres tx c (reg.history tx) reg x

/-- Core rollback/commit accounting: walking a record list with leaveRecord
discharges every word difference the list covers — a committed WRITE marks
its segment written, an aborted WRITE copies ro back over its range — so the
remaining differences are written-marked or covered by the residual
justification Q. -/
theorem fold_dual (tx : Nat) (c : Bool) (Q : Nat → Nat → Prop) :
    ∀ (l : List Record) (reg : Region),
    (∀ i sn, reg.allocs i = some sn → ∀ w, w < sn.numWords → sn.rw w ≠ sn.ro w →
        sn.written = true ∨ (∃ r ∈ l, coversW reg.align i w r) ∨ Q i w) →
    (∀ i sn, (l.foldl (leaveRecord tx c) reg).allocs i = some sn →
        ∀ w, w < sn.numWords → sn.rw w ≠ sn.ro w →
        sn.written = true ∨ Q i w) := by
  intro l
  induction l with
  | nil =>
      intro reg H i sn h w hw hne
      rcases H i sn h w hw hne with h1 | ⟨r, hr, _⟩ | h3
      · exact Or.inl h1
      · exact absurd hr (List.not_mem_nil r)
      · exact Or.inr h3
  | cons r l ih =>
      intro reg H
      rw [List.foldl_cons]
      apply ih (leaveRecord tx c reg r)
      have halign : (leaveRecord tx c reg r).align = reg.align := leaveRecord_align tx c reg r
      rw [halign]
      intro i sn h w hw hne
      -- relate the slot after processing r to the slot before
      cases r with
      | read seg off sz =>
          have hsame : ∃ sn0, reg.allocs i = some sn0 ∧ sn.rw = sn0.rw ∧ sn.ro = sn0.ro ∧
              sn.written = sn0.written ∧ sn.numWords = sn0.numWords := by
            by_cases hcm : c
            · rw [show leaveRecord tx c reg (.read seg off sz) = reg by simp [leaveRecord, hcm]] at h
              exact ⟨sn, h, rfl, rfl, rfl, rfl⟩
            · simp only [leaveRecord, hcm, if_false, Bool.false_eq_true] at h
              cases hseg : reg.allocs seg with
              | none => rw [hseg] at h; exact ⟨sn, h, rfl, rfl, rfl, rfl⟩
              | some sn0 =>
                  rw [hseg] at h
                  by_cases hx : i = seg
                  · subst hx
                    rw [show (setSeg reg i _).allocs i = _ from updFn_same _ _ _] at h
                    rw [hseg]
                    exact ⟨sn0, rfl, by rw [← Option.some_inj.mp h],
                           by rw [← Option.some_inj.mp h], by rw [← Option.some_inj.mp h],
                           by rw [← Option.some_inj.mp h]⟩
                  · rw [setSeg_allocs_ne _ _ _ hx] at h
                    exact ⟨sn, h, rfl, rfl, rfl, rfl⟩
          obtain ⟨sn0, h0, hrw, hro, hwr, hnw⟩ := hsame
          rw [hrw, hro] at hne
          rw [hnw] at hw
          rcases H i sn0 h0 w hw hne with h1 | ⟨r', hr', hc'⟩ | h3
          · exact Or.inl (by rw [hwr, h1])
          · rcases List.mem_cons.mp hr' with heq | hmem
            · subst heq; exact absurd hc' (by simp [coversW])
            · exact Or.inr (Or.inl ⟨r', hmem, hc'⟩)
          · exact Or.inr (Or.inr h3)
      | write seg off sz =>
          cases hseg : reg.allocs seg with
          | none =>
              rw [show leaveRecord tx c reg (.write seg off sz) = reg by
                    simp [leaveRecord, hseg]] at h
              rcases H i sn h w hw hne with h1 | ⟨r', hr', hc'⟩ | h3
              · exact Or.inl h1
              · rcases List.mem_cons.mp hr' with heq | hmem
                · subst heq
                  obtain ⟨hiseg, _, _⟩ := hc'
                  rw [hiseg] at hseg
                  rw [hseg] at h; exact absurd h (by simp)
                · exact Or.inr (Or.inl ⟨r', hmem, hc'⟩)
              · exact Or.inr (Or.inr h3)
          | some sn0 =>
              by_cases hx : i = seg
              · subst hx
                by_cases hcm : c
                · -- commit: written set on this segment
                  simp only [leaveRecord, hseg, hcm, if_true] at h
                  rw [show (setSeg reg i _).allocs i = _ from updFn_same _ _ _] at h
                  exact Or.inl (by rw [← Option.some_inj.mp h])
                · -- abort: rollback over the record's range
                  simp only [leaveRecord, hseg, hcm, if_false, Bool.false_eq_true] at h
                  rw [show (setSeg reg i _).allocs i = _ from updFn_same _ _ _] at h
                  rw [← Option.some_inj.mp h] at hne hw
                  by_cases hrange : off / reg.align ≤ w ∧ w < off / reg.align + sz / reg.align
                  · exfalso
                    apply hne
                    show copyRange sn0.rw sn0.ro (off / reg.align) (sz / reg.align) w = sn0.ro w
                    simp [copyRange, hrange]
                  · have hne0 : sn0.rw w ≠ sn0.ro w := by
                      intro hcontra
                      apply hne
                      show copyRange sn0.rw sn0.ro _ _ w = sn0.ro w
                      simp only [copyRange]
                      rw [if_neg hrange]
                      exact hcontra
                    rcases H i sn0 hseg w (by exact hw) hne0 with h1 | ⟨r', hr', hc'⟩ | h3
                    · exact Or.inl (by rw [← Option.some_inj.mp h]; exact h1)
                    · rcases List.mem_cons.mp hr' with heq | hmem
                      · subst heq
                        obtain ⟨_, hlo, hhi⟩ := hc'
                        exact absurd ⟨hlo, hhi⟩ hrange
                      · exact Or.inr (Or.inl ⟨r', hmem, hc'⟩)
                    · exact Or.inr (Or.inr h3)
              · -- other slot untouched
                have hsame : (leaveRecord tx c reg (.write seg off sz)).allocs i = reg.allocs i := by
                  by_cases hcm : c <;>
                    simp [leaveRecord, hseg, hcm, setSeg_allocs_ne _ _ _ hx]
                rw [hsame] at h
                rcases H i sn h w hw hne with h1 | ⟨r', hr', hc'⟩ | h3
                · exact Or.inl h1
                · rcases List.mem_cons.mp hr' with heq | hmem
                  · subst heq; exact absurd hc'.1 (fun hh => hx hh.symm)
                  · exact Or.inr (Or.inl ⟨r', hmem, hc'⟩)
                · exact Or.inr (Or.inr h3)
      | alloc seg =>
          have hsame : ∃ sn0, reg.allocs i = some sn0 ∧ sn.rw = sn0.rw ∧ sn.ro = sn0.ro ∧
              sn.written = sn0.written ∧ sn.numWords = sn0.numWords := by
            by_cases hcm : c
            · rw [show leaveRecord tx c reg (.alloc seg) = reg by simp [leaveRecord, hcm]] at h
              exact ⟨sn, h, rfl, rfl, rfl, rfl⟩
            · simp only [leaveRecord, hcm, if_false, Bool.false_eq_true, markFreed] at h
              cases hseg : reg.allocs seg with
              | none => rw [hseg] at h; exact ⟨sn, h, rfl, rfl, rfl, rfl⟩
              | some sn0 =>
                  rw [hseg] at h
                  by_cases hx : i = seg
                  · subst hx
                    rw [show (setSeg reg i _).allocs i = _ from updFn_same _ _ _] at h
                    rw [hseg]
                    exact ⟨sn0, rfl, by rw [← Option.some_inj.mp h],
                           by rw [← Option.some_inj.mp h], by rw [← Option.some_inj.mp h],
                           by rw [← Option.some_inj.mp h]⟩
                  · rw [setSeg_allocs_ne _ _ _ hx] at h
                    exact ⟨sn, h, rfl, rfl, rfl, rfl⟩
          obtain ⟨sn0, h0, hrw, hro, hwr, hnw⟩ := hsame
          rw [hrw, hro] at hne
          rw [hnw] at hw
          rcases H i sn0 h0 w hw hne with h1 | ⟨r', hr', hc'⟩ | h3
          · exact Or.inl (by rw [hwr, h1])
          · rcases List.mem_cons.mp hr' with heq | hmem
            · subst heq; exact absurd hc' (by simp [coversW])
            · exact Or.inr (Or.inl ⟨r', hmem, hc'⟩)
          · exact Or.inr (Or.inr h3)
      | free seg =>
          have hsame : ∃ sn0, reg.allocs i = some sn0 ∧ sn.rw = sn0.rw ∧ sn.ro = sn0.ro ∧
              sn.written = sn0.written ∧ sn.numWords = sn0.numWords := by
            by_cases hcm : c
            · simp only [leaveRecord, hcm, if_true, markFreed] at h
              cases hseg : reg.allocs seg with
              | none => rw [hseg] at h; exact ⟨sn, h, rfl, rfl, rfl, rfl⟩
              | some sn0 =>
                  rw [hseg] at h
                  by_cases hx : i = seg
                  · subst hx
                    rw [show (setSeg reg i _).allocs i = _ from updFn_same _ _ _] at h
                    rw [hseg]
                    exact ⟨sn0, rfl, by rw [← Option.some_inj.mp h],
                           by rw [← Option.some_inj.mp h], by rw [← Option.some_inj.mp h],
                           by rw [← Option.some_inj.mp h]⟩
                  · rw [setSeg_allocs_ne _ _ _ hx] at h
                    exact ⟨sn, h, rfl, rfl, rfl, rfl⟩
            · rw [show leaveRecord tx c reg (.free seg) = reg by simp [leaveRecord, hcm]] at h
              exact ⟨sn, h, rfl, rfl, rfl, rfl⟩
          obtain ⟨sn0, h0, hrw, hro, hwr, hnw⟩ := hsame
          rw [hrw, hro] at hne
          rw [hnw] at hw
          rcases H i sn0 h0 w hw hne with h1 | ⟨r', hr', hc'⟩ | h3
          · exact Or.inl (by rw [hwr, h1])
          · rcases List.mem_cons.mp hr' with heq | hmem
            · subst heq; exact absurd hc' (by simp [coversW])
            · exact Or.inr (Or.inl ⟨r', hmem, hc'⟩)
          · exact Or.inr (Or.inr h3)

theorem occCount_congr (reg reg' : Region)
    (h : ∀ j, (reg'.allocs j).isSome = (reg.allocs j).isSome) :
    occCount reg' = occCount reg := by
  unfold occCount
  congr 1
  apply Finset.filter_congr
  intro j _
  rw [h j]

theorem occCount_set_fresh (reg : Region) (i : Nat) (sn : Seg) (hi : i < MAX_SEG)
    (h : reg.allocs i = none) :
    occCount (setSeg reg i sn) = occCount reg + 1 := by
  unfold occCount
  have hins : (Finset.range MAX_SEG).filter (fun j => ((setSeg reg i sn).allocs j).isSome) =
      insert i ((Finset.range MAX_SEG).filter (fun j => (reg.allocs j).isSome)) := by
    ext j
    simp only [Finset.mem_filter, Finset.mem_insert, Finset.mem_range]
    by_cases hx : j = i
    · subst hx; simp [setSeg, updFn_same, hi]
    · simp [setSeg, updFn_ne _ _ _ hx, hx]
  rw [hins, Finset.card_insert_of_not_mem]
  simp [h]

theorem occCount_remove (reg reg' : Region) (i : Nat) (hi : i < MAX_SEG)
    (h : (reg.allocs i).isSome = true)
    (h' : reg'.allocs = updFn reg.allocs i none) :
    occCount reg = occCount reg' + 1 := by
  unfold occCount
  have hdel : (Finset.range MAX_SEG).filter (fun j => (reg'.allocs j).isSome) =
      ((Finset.range MAX_SEG).filter (fun j => (reg.allocs j).isSome)).erase i := by
    ext j
    simp only [Finset.mem_filter, Finset.mem_erase, Finset.mem_range, h']
    by_cases hx : j = i
    · subst hx; simp [updFn_same]
    · simp [updFn_ne _ _ _ hx, hx]
  have hmem : i ∈ (Finset.range MAX_SEG).filter (fun j => (reg.allocs j).isSome) := by
    simp [Finset.mem_filter, Finset.mem_range, hi, h]
  rw [hdel, Finset.card_erase_of_mem hmem]
  have hpos : 0 < ((Finset.range MAX_SEG).filter (fun j => (reg.allocs j).isSome)).card :=
    Finset.card_pos.mpr ⟨i, hmem⟩
  omega

/-! Behaviour of the end-of-epoch sweep. -/

theorem eoeSeg_history (reg : Region) (i : Nat) : (eoeSeg reg i).history = reg.history := by
  unfold eoeSeg
  cases reg.allocs i <;> (simp only []; repeat' first | split | rfl)

theorem eoeSeg_batcher (reg : Region) (i : Nat) : (eoeSeg reg i).batcher = reg.batcher := by
  unfold eoeSeg
  cases reg.allocs i <;> (simp only []; repeat' first | split | rfl)

theorem eoeSeg_align (reg : Region) (i : Nat) : (eoeSeg reg i).align = reg.align := by
  unfold eoeSeg
  cases reg.allocs i <;> (simp only []; repeat' first | split | rfl)

theorem eoeSeg_none (reg : Region) (i x : Nat) (h : reg.allocs x = none) :
    (eoeSeg reg i).allocs x = none := by
  unfold eoeSeg
  by_cases hx : x = i
  · subst hx; rw [h]; exact h
  · cases hseg : reg.allocs i with
    | none => exact h
    | some sn =>
        by_cases hf : sn.freed
        · simp only [hseg, hf, if_true]
          rw [updFn_ne _ _ _ hx]; exact h
        · by_cases hwr : sn.written <;>
            simp only [hseg, hf, hwr, if_true, if_false, Bool.false_eq_true] <;>
            rw [setSeg_allocs_ne _ _ _ hx] <;> exact h

/-- Case analysis on what the sweep does to the slot it processes. -/
theorem eoeSeg_self (reg : Region) (i : Nat) (sn0 : Seg) (hseg : reg.allocs i = some sn0) :
    (sn0.freed = true ∧ (eoeSeg reg i).allocs i = none) ∨
    (sn0.freed = false ∧ sn0.written = true ∧
      (eoeSeg reg i).allocs i = some { sn0 with
        ro := copyRange sn0.ro sn0.rw 0 sn0.numWords, written := false,
        aset := fun _ => 0 }) ∨
    (sn0.freed = false ∧ sn0.written = false ∧
      (eoeSeg reg i).allocs i = some { sn0 with aset := fun _ => 0 }) := by
  unfold eoeSeg
  rw [hseg]
  by_cases hf : sn0.freed
  · exact Or.inl ⟨hf, by simp only [hf, if_true]; exact updFn_same _ _ _⟩
  · by_cases hwr : sn0.written
    · refine Or.inr (Or.inl ⟨by simpa using hf, hwr, ?_⟩)
      simp only [hf, hwr, if_false, if_true, Bool.false_eq_true]
      exact updFn_same _ _ _
    · refine Or.inr (Or.inr ⟨by simpa using hf, by simpa using hwr, ?_⟩)
      simp only [hf, hwr, if_false, Bool.false_eq_true]
      exact updFn_same _ _ _

theorem eoeSeg_other (reg : Region) (i : Nat) {x : Nat} (hx : x ≠ i) :
    (eoeSeg reg i).allocs x = reg.allocs x := by
  unfold eoeSeg
  cases reg.allocs i with
  | none => rfl
  | some sn0 =>
      by_cases hf : sn0.freed
      · simp only [hf, if_true]; exact updFn_ne _ _ _ hx
      · by_cases hwr : sn0.written <;>
          simp only [hf, hwr, if_true, if_false, Bool.false_eq_true] <;>
          exact setSeg_allocs_ne _ _ _ hx

theorem eoeSeg_writtenOnly (reg : Region) (i : Nat) (h : writtenOnly reg) :
    writtenOnly (eoeSeg reg i) := by
  intro x sn hx w hw hne
  by_cases hxi : x = i
  · subst hxi
    cases hseg : reg.allocs x with
    | none =>
        rw [eoeSeg_none reg x x hseg] at hx
        exact Option.noConfusion hx
    | some sn0 =>
        rcases eoeSeg_self reg x sn0 hseg with ⟨_, hnone⟩ | ⟨_, _, hsome⟩ | ⟨_, hwr, hsome⟩
        · rw [hnone] at hx; exact Option.noConfusion hx
        · rw [hsome] at hx
          exfalso
          apply hne
          rw [← Option.some_inj.mp hx]
          show sn0.rw w = copyRange sn0.ro sn0.rw 0 sn0.numWords w
          have hw' : w < sn0.numWords := by
            rw [← Option.some_inj.mp hx] at hw; exact hw
          simp [copyRange, hw']
        · rw [hsome] at hx
          exfalso
          apply hne
          have hw' : w < sn0.numWords := by
            rw [← Option.some_inj.mp hx] at hw; exact hw
          have hgood : sn0.rw w = sn0.ro w := by
            by_contra hcon
            rw [h x sn0 hseg w hw' hcon] at hwr
            exact Bool.noConfusion hwr
          rw [← Option.some_inj.mp hx]
          exact hgood
  · rw [eoeSeg_other reg i hxi] at hx
    exact h x sn hx w hw hne

theorem eoeSeg_goodSlot_self (reg : Region) (i : Nat) (h : writtenOnly reg) :
    goodSlot (eoeSeg reg i) i := by
  intro sn hx w hw
  cases hseg : reg.allocs i with
  | none => rw [eoeSeg_none reg i i hseg] at hx; exact Option.noConfusion hx
  | some sn0 =>
      rcases eoeSeg_self reg i sn0 hseg with ⟨_, hnone⟩ | ⟨_, _, hsome⟩ | ⟨_, hwr, hsome⟩
      · rw [hnone] at hx; exact Option.noConfusion hx
      · rw [hsome] at hx
        rw [← Option.some_inj.mp hx] at hw ⊢
        show sn0.rw w = copyRange sn0.ro sn0.rw 0 sn0.numWords w
        simp [copyRange, show w < sn0.numWords from hw]
      · rw [hsome] at hx
        rw [← Option.some_inj.mp hx] at hw ⊢
        show sn0.rw w = sn0.ro w
        by_contra hcon
        rw [h i sn0 hseg w hw hcon] at hwr
        exact Bool.noConfusion hwr

theorem eoeSeg_goodSlot_mono (reg : Region) (i j : Nat) (h : goodSlot reg j)
    (hw : writtenOnly reg) : goodSlot (eoeSeg reg i) j := by
  by_cases hij : j = i
  · subst hij; exact eoeSeg_goodSlot_self reg j hw
  · intro sn hx w hww
    rw [eoeSeg_other reg i hij] at hx
    exact h sn hx w hww

theorem eoeFold_goodSlot_mono (l : List Nat) : ∀ (reg : Region) (j : Nat),
    writtenOnly reg → goodSlot reg j → goodSlot (l.foldl eoeSeg reg) j := by
  induction l with
  | nil => exact fun reg j _ h => h
  | cons k l ih =>
      intro reg j hw h
      rw [List.foldl_cons]
      exact ih (eoeSeg reg k) j (eoeSeg_writtenOnly reg k hw) (eoeSeg_goodSlot_mono reg k j h hw)

theorem eoeFold_good (l : List Nat) : ∀ (reg : Region), writtenOnly reg →
    writtenOnly (l.foldl eoeSeg reg) ∧ ∀ i ∈ l, goodSlot (l.foldl eoeSeg reg) i := by
  induction l with
  | nil => exact fun reg h => ⟨h, fun i hi => absurd hi (List.not_mem_nil i)⟩
  | cons i l ih =>
      intro reg h
      rw [List.foldl_cons]
      have h' : writtenOnly (eoeSeg reg i) := eoeSeg_writtenOnly reg i h
      obtain ⟨hfin, hgood⟩ := ih (eoeSeg reg i) h'
      refine ⟨hfin, ?_⟩
      intro j hj
      rcases List.mem_cons.mp hj with heq | hmem
      · subst heq
        exact eoeFold_goodSlot_mono l (eoeSeg reg j) j h' (eoeSeg_goodSlot_self reg j h)
      · exact hgood j hmem

theorem eoeSeg_eq_of_none (reg : Region) (i : Nat) (h : reg.allocs i = none) :
    eoeSeg reg i = reg := by
  unfold eoeSeg; rw [h]

/-- One sweep step preserves the id-stack discipline: live stack entries name
unoccupied slots with ids in 1..MAX_SEG-1, pairwise distinct, and the
occupied-slot count stays below the stack pointer. -/
theorem eoeSeg_stack (reg : Region) (i : Nat) (h1 : 1 ≤ i) (h2 : i < MAX_SEG)
    (hD : ∀ k, reg.top ≤ k → k < MAX_SEG → reg.allocs (reg.segment_id k) = none)
    (hV : ∀ k, 1 ≤ k → k < MAX_SEG → 1 ≤ reg.segment_id k ∧ reg.segment_id k < MAX_SEG)
    (hN : ∀ k1 k2, reg.top ≤ k1 → k1 < k2 → k2 < MAX_SEG →
        reg.segment_id k1 ≠ reg.segment_id k2)
    (hO : occCount reg + 1 ≤ reg.top) :
    (∀ k, (eoeSeg reg i).top ≤ k → k < MAX_SEG →
        (eoeSeg reg i).allocs ((eoeSeg reg i).segment_id k) = none) ∧
    (∀ k, 1 ≤ k → k < MAX_SEG →
        1 ≤ (eoeSeg reg i).segment_id k ∧ (eoeSeg reg i).segment_id k < MAX_SEG) ∧
    (∀ k1 k2, (eoeSeg reg i).top ≤ k1 → k1 < k2 → k2 < MAX_SEG →
        (eoeSeg reg i).segment_id k1 ≠ (eoeSeg reg i).segment_id k2) ∧
    (occCount (eoeSeg reg i) + 1 ≤ (eoeSeg reg i).top) := by
  cases hseg : reg.allocs i with
  | none => rw [eoeSeg_eq_of_none reg i hseg]; exact ⟨hD, hV, hN, hO⟩
  | some sn =>
      by_cases hf : sn.freed
      · -- slot i is reclaimed: id i is pushed at top-1, the slot emptied
        have hre : eoeSeg reg i = { reg with
            top := reg.top - 1,
            segment_id := updFn reg.segment_id (reg.top - 1) i,
            allocs := updFn reg.allocs i none } := by
          unfold eoeSeg; rw [hseg]; simp only [hf, if_true]
        have hocc : occCount reg = occCount (eoeSeg reg i) + 1 :=
          occCount_remove reg (eoeSeg reg i) i h2 (by rw [hseg]; rfl) (by rw [hre])
        have htop1 : 1 ≤ reg.top := le_trans (Nat.le_add_left 1 _) hO
        have hisome : reg.allocs i ≠ none := by rw [hseg]; exact fun hh => Option.noConfusion hh
        refine ⟨?_, ?_, ?_, ?_⟩
        · intro k hk hk'
          rw [hre] at hk ⊢
          simp only at hk ⊢
          by_cases hkt : k = reg.top - 1
          · subst hkt; rw [updFn_same, updFn_same]
          · rw [updFn_ne _ _ _ hkt]
            have hk2 : reg.top ≤ k := by omega
            by_cases hsk : reg.segment_id k = i
            · rw [hsk, updFn_same]
            · rw [updFn_ne _ _ _ hsk]; exact hD k hk2 hk'
        · intro k hk hk'
          rw [hre]; simp only
          by_cases hkt : k = reg.top - 1
          · subst hkt; rw [updFn_same]; exact ⟨h1, h2⟩
          · rw [updFn_ne _ _ _ hkt]; exact hV k hk hk'
        · intro k1 k2 hk1 hlt hk2
          rw [hre] at hk1 ⊢; simp only at hk1 ⊢
          by_cases hkt : k1 = reg.top - 1
          · subst hkt
            rw [updFn_same, updFn_ne _ _ _ (by omega : k2 ≠ reg.top - 1)]
            intro hcontra
            exact hisome (by rw [hcontra]; exact hD k2 (by omega) hk2)
          · rw [updFn_ne _ _ _ hkt, updFn_ne _ _ _ (by omega : k2 ≠ reg.top - 1)]
            exact hN k1 k2 (by omega) hlt hk2
        · rw [hre] at hocc ⊢
          simp only at hocc ⊢
          omega
      · -- slot i survives (possibly snapshot-installed); stack untouched
        have hsame : ∀ x, ((eoeSeg reg i).allocs x).isSome = (reg.allocs x).isSome := by
          intro x
          by_cases hx : x = i
          · subst hx
            rcases eoeSeg_self reg x sn hseg with ⟨hff, _⟩ | ⟨_, _, hsome⟩ | ⟨_, _, hsome⟩
            · rw [hff] at hf; exact absurd rfl hf
            · rw [hsome, hseg]; rfl
            · rw [hsome, hseg]; rfl
          · rw [eoeSeg_other reg i hx]
        have htops : (eoeSeg reg i).top = reg.top ∧ (eoeSeg reg i).segment_id = reg.segment_id := by
          unfold eoeSeg
          rw [hseg]
          by_cases hwr : sn.written <;>
            simp only [hf, hwr, if_true, if_false, Bool.false_eq_true] <;> exact ⟨rfl, rfl⟩
        refine ⟨?_, ?_, ?_, ?_⟩
        · intro k hk hk'
          rw [htops.1] at hk
          rw [htops.2]
          have hold := hD k hk hk'
          have : (eoeSeg reg i).allocs (reg.segment_id k) = none := by
            have his := hsame (reg.segment_id k)
            rw [hold] at his
            exact Option.not_isSome_iff_eq_none.mp (by rw [his]; simp)
          exact this
        · intro k hk hk'; rw [htops.2]; exact hV k hk hk'
        · intro k1 k2 hk1 hlt hk2
          rw [htops.1] at hk1
          rw [htops.2]
          exact hN k1 k2 hk1 hlt hk2
        · rw [htops.1, occCount_congr reg (eoeSeg reg i) hsame]
          exact hO

theorem eoeFold_stack (l : List Nat) : ∀ (reg : Region), (∀ i ∈ l, 1 ≤ i ∧ i < MAX_SEG) →
    (∀ k, reg.top ≤ k → k < MAX_SEG → reg.allocs (reg.segment_id k) = none) →
    (∀ k, 1 ≤ k → k < MAX_SEG → 1 ≤ reg.segment_id k ∧ reg.segment_id k < MAX_SEG) →
    (∀ k1 k2, reg.top ≤ k1 → k1 < k2 → k2 < MAX_SEG →
        reg.segment_id k1 ≠ reg.segment_id k2) →
    (occCount reg + 1 ≤ reg.top) →
    ((∀ k, (l.foldl eoeSeg reg).top ≤ k → k < MAX_SEG →
        (l.foldl eoeSeg reg).allocs ((l.foldl eoeSeg reg).segment_id k) = none) ∧
     (∀ k, 1 ≤ k → k < MAX_SEG →
        1 ≤ (l.foldl eoeSeg reg).segment_id k ∧ (l.foldl eoeSeg reg).segment_id k < MAX_SEG) ∧
     (∀ k1 k2, (l.foldl eoeSeg reg).top ≤ k1 → k1 < k2 → k2 < MAX_SEG →
        (l.foldl eoeSeg reg).segment_id k1 ≠ (l.foldl eoeSeg reg).segment_id k2) ∧
     (occCount (l.foldl eoeSeg reg) + 1 ≤ (l.foldl eoeSeg reg).top)) := by
  induction l with
  | nil => exact fun reg _ hD hV hN hO => ⟨hD, hV, hN, hO⟩
  | cons i l ih =>
      intro reg hmem hD hV hN hO
      rw [List.foldl_cons]
      obtain ⟨h1, h2⟩ := hmem i (List.mem_cons_self i l)
      obtain ⟨hD', hV', hN', hO'⟩ := eoeSeg_stack reg i h1 h2 hD hV hN hO
      exact ih (eoeSeg reg i) (fun j hj => hmem j (List.mem_cons_of_mem i hj)) hD' hV' hN' hO'

theorem eoeFold_none (l : List Nat) : ∀ (reg : Region) (x : Nat), reg.allocs x = none →
    (l.foldl eoeSeg reg).allocs x = none := by
  induction l with
  | nil => exact fun reg x h => h
  | cons i l ih =>
      intro reg x h
      rw [List.foldl_cons]
      exact ih (eoeSeg reg i) x (eoeSeg_none reg i x h)

/-- All properties of the end-of-epoch procedure the invariants need:
batcher reinitialization, cleared histories, the id-stack discipline, and —
given that every difference between the copies was marked written — the
byte-for-byte agreement of both copies of every surviving segment. -/
theorem endOfEpoch_props (reg : Region)
    (hD : ∀ k, reg.top ≤ k → k < MAX_SEG → reg.allocs (reg.segment_id k) = none)
    (hV : ∀ k, 1 ≤ k → k < MAX_SEG → 1 ≤ reg.segment_id k ∧ reg.segment_id k < MAX_SEG)
    (hN : ∀ k1 k2, reg.top ≤ k1 → k1 < k2 → k2 < MAX_SEG →
        reg.segment_id k1 ≠ reg.segment_id k2)
    (hO : occCount reg + 1 ≤ reg.top)
    (h0 : reg.allocs 0 = none)
    (hHi : ∀ i, MAX_SEG ≤ i → reg.allocs i = none)
    (hW : writtenOnly reg) :
    (endOfEpoch reg).batcher = { counter := reg.batcher.counter + 1
                                 rw_tx := 0
                                 ro_tx := MAX_RW_TX
                                 remaining := reg.batcher.blocked
                                 blocked := 0 } ∧
    (endOfEpoch reg).history = (fun _ => []) ∧
    (∀ k, (endOfEpoch reg).top ≤ k → k < MAX_SEG →
        (endOfEpoch reg).allocs ((endOfEpoch reg).segment_id k) = none) ∧
    (∀ k, 1 ≤ k → k < MAX_SEG →
        1 ≤ (endOfEpoch reg).segment_id k ∧ (endOfEpoch reg).segment_id k < MAX_SEG) ∧
    (∀ k1 k2, (endOfEpoch reg).top ≤ k1 → k1 < k2 → k2 < MAX_SEG →
        (endOfEpoch reg).segment_id k1 ≠ (endOfEpoch reg).segment_id k2) ∧
    (occCount (endOfEpoch reg) + 1 ≤ (endOfEpoch reg).top) ∧
    ((endOfEpoch reg).allocs 0 = none) ∧
    (∀ i, MAX_SEG ≤ i → (endOfEpoch reg).allocs i = none) ∧
    (∀ i sn, (endOfEpoch reg).allocs i = some sn → ∀ w, w < sn.numWords →
        sn.rw w = sn.ro w) := by
  have hbat : ∀ (reg1 : Region), reg1 = (List.range' FIRST_SEG (MAX_SEG - FIRST_SEG)).foldl eoeSeg reg →
      (endOfEpoch reg).allocs = reg1.allocs ∧ (endOfEpoch reg).top = reg1.top ∧
      (endOfEpoch reg).segment_id = reg1.segment_id ∧
      (endOfEpoch reg).batcher = { counter := reg1.batcher.counter + 1
                                   rw_tx := 0
                                   ro_tx := MAX_RW_TX
                                   remaining := reg1.batcher.blocked
                                   blocked := 0 } ∧
      (endOfEpoch reg).history = (fun _ => []) := by
    intro reg1 h1
    unfold endOfEpoch
    rw [← h1]
    exact ⟨rfl, rfl, rfl, rfl, rfl⟩
  obtain ⟨hA, hT, hS, hB, hH⟩ := hbat _ rfl
  have hbstable : ((List.range' FIRST_SEG (MAX_SEG - FIRST_SEG)).foldl eoeSeg reg).batcher =
      reg.batcher :=
    foldl_stable eoeSeg Region.batcher (fun a b => eoeSeg_batcher a b) _ reg
  have hmem : ∀ i ∈ List.range' FIRST_SEG (MAX_SEG - FIRST_SEG), 1 ≤ i ∧ i < MAX_SEG := by
    intro i hi
    have := List.mem_range'_1.mp hi
    exact ⟨this.1, by omega⟩
  obtain ⟨hD', hV', hN', hO'⟩ :=
    eoeFold_stack (List.range' FIRST_SEG (MAX_SEG - FIRST_SEG)) reg hmem hD hV hN hO
  obtain ⟨hWf, hGood⟩ := eoeFold_good (List.range' FIRST_SEG (MAX_SEG - FIRST_SEG)) reg hW
  refine ⟨by rw [hB, hbstable], hH, ?_, ?_, ?_, ?_, ?_, ?_, ?_⟩
  · intro k hk hk'; rw [hA, hS]; rw [hT] at hk; exact hD' k hk hk'
  · intro k hk hk'; rw [hS]; exact hV' k hk hk'
  · intro k1 k2 hk1 hlt hk2; rw [hS]; rw [hT] at hk1; exact hN' k1 k2 hk1 hlt hk2
  · have : occCount (endOfEpoch reg) =
        occCount ((List.range' FIRST_SEG (MAX_SEG - FIRST_SEG)).foldl eoeSeg reg) :=
      occCount_congr _ _ (fun j => by rw [hA])
    rw [this, hT]; exact hO'
  · rw [hA]; exact eoeFold_none _ reg 0 h0
  · intro i hi; rw [hA]; exact eoeFold_none _ reg i (hHi i hi)
  · intro i sn hsn w hw
    rw [hA] at hsn
    by_cases hil : 1 ≤ i ∧ i < MAX_SEG
    · have hin : i ∈ List.range' FIRST_SEG (MAX_SEG - FIRST_SEG) := by
        apply List.mem_range'_1.mpr
        exact ⟨hil.1, by have := hil.2; omega⟩
      exact hGood i hin sn hsn w hw
    · exfalso
      rcases Nat.lt_or_ge i 1 with hlo | hhi
      · have : i = 0 := by omega
        subst this
        rw [eoeFold_none _ reg 0 h0] at hsn
        exact Option.noConfusion hsn
      · have : MAX_SEG ≤ i := by
          rcases Nat.lt_or_ge i MAX_SEG with ha | hb
          · exact absurd ⟨hhi, ha⟩ hil
          · exact hb
        rw [eoeFold_none _ reg i (hHi i this)] at hsn
        exact Option.noConfusion hsn


/-! Facts about the region-level part of batcher_leave. -/

theorem leaveReg_batcher (reg : Region) (tx : Nat) (c : Bool) :
    (leaveReg reg tx c).batcher
      = { reg.batcher with remaining := reg.batcher.remaining - 1 } := by
  unfold leaveReg
  by_cases htx : tx < MAX_RW_TX <;> simp [htx, processLog_batcher]

theorem leaveReg_align (reg : Region) (tx : Nat) (c : Bool) :
    (leaveReg reg tx c).align = reg.align := by
  unfold leaveReg
  by_cases htx : tx < MAX_RW_TX <;> simp [htx, processLog_align]

theorem leaveReg_top (reg : Region) (tx : Nat) (c : Bool) :
    (leaveReg reg tx c).top = reg.top := by
  unfold leaveReg
  by_cases htx : tx < MAX_RW_TX <;> simp [htx, processLog_top]

theorem leaveReg_segment_id (reg : Region) (tx : Nat) (c : Bool) :
    (leaveReg reg tx c).segment_id = reg.segment_id := by
  unfold leaveReg
  by_cases htx : tx < MAX_RW_TX <;> simp [htx, processLog_segment_id]

theorem leaveReg_history (reg : Region) (tx : Nat) (c : Bool)
    (hro : MAX_RW_TX ≤ tx → reg.history tx = []) :
    ∀ t, (leaveReg reg tx c).history t = updFn reg.history tx [] t := by
  intro t
  unfold leaveReg
  by_cases htx : tx < MAX_RW_TX
  · simp only [htx, if_true]
    show (processLog reg tx c).history t = _
    rw [processLog_history]
  · simp only [htx, if_false]
    show reg.history t = _
    by_cases ht : t = tx
    · subst ht; rw [updFn_same, hro (Nat.le_of_not_lt htx)]
    · rw [updFn_ne _ _ _ ht]

theorem leaveReg_pres (reg : Region) (tx : Nat) (c : Bool) (x : Nat) :
    ((leaveReg reg tx c).allocs x).isSome = (reg.allocs x).isSome := by
  unfold leaveReg
  by_cases htx : tx < MAX_RW_TX
  · simp only [htx, if_true]
    exact (processLog_allocs_pres reg tx c x).1
  · simp only [htx, if_false]

theorem leaveReg_ro (reg : Region) (tx : Nat) (c : Bool) (x : Nat) (sn : Seg)
    (h : reg.allocs x = some sn) :
    ∃ sn', (leaveReg reg tx c).allocs x = some sn' ∧
      sn'.ro = sn.ro ∧ sn'.numWords = sn.numWords := by
  unfold leaveReg
  by_cases htx : tx < MAX_RW_TX
  · simp only [htx, if_true]
    exact (processLog_allocs_pres reg tx c x).2 sn h
  · simp only [htx, if_false]
    exact ⟨sn, h, rfl, rfl⟩

theorem leaveReg_none (reg : Region) (tx : Nat) (c : Bool) (x : Nat)
    (h : reg.allocs x = none) : (leaveReg reg tx c).allocs x = none := by
  have := leaveReg_pres reg tx c x
  rw [h] at this
  exact Option.not_isSome_iff_eq_none.mp (by rw [this]; simp)

theorem leaveReg_dual (reg : Region) (tx : Nat) (c : Bool) (act : List Nat)
    (hdual : ∀ i sn, reg.allocs i = some sn → ∀ w, w < sn.numWords →
      sn.rw w ≠ sn.ro w → sn.written = true ∨
        ∃ tx' ∈ act, ∃ r ∈ reg.history tx', coversW reg.align i w r)
    (hro : MAX_RW_TX ≤ tx → reg.history tx = []) :
    ∀ i sn, (leaveReg reg tx c).allocs i = some sn → ∀ w, w < sn.numWords →
      sn.rw w ≠ sn.ro w → sn.written = true ∨
        ∃ tx', tx' ≠ tx ∧ tx' ∈ act ∧ ∃ r ∈ reg.history tx', coversW reg.align i w r := by
  unfold leaveReg
  by_cases htx : tx < MAX_RW_TX
  · simp only [htx, if_true]
    intro i sn h w hw hne
    refine fold_dual tx c (fun i w => ∃ tx', tx' ≠ tx ∧ tx' ∈ act ∧
        ∃ r ∈ reg.history tx', coversW reg.align i w r) (reg.history tx) reg
      ?_ i sn h w hw hne
    intro i0 sn0 h0 w0 hw0 hne0
    rcases hdual i0 sn0 h0 w0 hw0 hne0 with hwr | ⟨tx', hmem', r, hr, hcov⟩
    · exact Or.inl hwr
    · by_cases hne' : tx' = tx
      · subst hne'; exact Or.inr (Or.inl ⟨r, hr, hcov⟩)
      · exact Or.inr (Or.inr ⟨tx', hne', hmem', r, hr, hcov⟩)
  · simp only [htx, if_false]
    intro i sn h w hw hne
    rcases hdual i sn h w hw hne with hwr | ⟨tx', hmem', r, hr, hcov⟩
    · exact Or.inl hwr
    · by_cases hne' : tx' = tx
      · subst hne'
        rw [hro (Nat.le_of_not_lt htx)] at hr
        exact absurd hr (List.not_mem_nil r)
      · exact Or.inr ⟨tx', hne', hmem', r, hr, hcov⟩

/-- Everything the claims need about batcher_leave: it preserves the
reachability invariant; when it triggers the epoch boundary (recognizable by
the bumped epoch counter), every surviving segment's two copies agree; and
when it does not, every segment survives with its read-only copy intact. -/
theorem sysLeave_master (s : Sys) (tx : Nat) (c : Bool) (hI : Inv s) (hmem : tx ∈ s.active) :
    Inv (sysLeave s tx c) ∧
    ((sysLeave s tx c).reg.batcher.counter = s.reg.batcher.counter + 1 →
       ∀ i sn, (sysLeave s tx c).reg.allocs i = some sn → ∀ w, w < sn.numWords →
         sn.rw w = sn.ro w) ∧
    ((sysLeave s tx c).reg.batcher.counter = s.reg.batcher.counter →
       ∀ i sn, s.reg.allocs i = some sn → ∃ sn', (sysLeave s tx c).reg.allocs i = some sn' ∧
          sn'.ro = sn.ro ∧ sn'.numWords = sn.numWords) := by
  have hhistro : MAX_RW_TX ≤ tx → s.reg.history tx = [] := by
    intro htx
    by_contra hcon
    have := (hI.histActive tx hcon).2
    omega
  have hdual0 : ∀ i sn, s.reg.allocs i = some sn → ∀ w, w < sn.numWords →
      sn.rw w ≠ sn.ro w → sn.written = true ∨
        ∃ tx' ∈ s.active, ∃ r ∈ s.reg.history tx', coversW s.reg.align i w r := hI.dual
  have hLdual := leaveReg_dual s.reg tx c s.active hdual0 hhistro
  have hLbat := leaveReg_batcher s.reg tx c
  have hLtop := leaveReg_top s.reg tx c
  have hLsid := leaveReg_segment_id s.reg tx c
  have hLalign := leaveReg_align s.reg tx c
  have hLhist := leaveReg_history s.reg tx c hhistro
  have hLpres := leaveReg_pres s.reg tx c
  have hLro := leaveReg_ro s.reg tx c
  have hLnone := leaveReg_none s.reg tx c
  have hLocc : occCount (leaveReg s.reg tx c) = occCount s.reg :=
    occCount_congr _ _ (fun j => hLpres j)
  have hactpos : 1 ≤ s.active.length := by
    cases hal : s.active with
    | nil => rw [hal] at hmem; exact absurd hmem (List.not_mem_nil tx)
    | cons a l => simp
  have hLrem : (leaveReg s.reg tx c).batcher.remaining = s.reg.batcher.remaining - 1 := by
    rw [hLbat]
  by_cases hrem : (leaveReg s.reg tx c).batcher.remaining = 0
  · -- boundary: the leaving transaction is the last one of the epoch
    have hone : s.active.length = 1 := by
      rw [hLrem] at hrem
      have := hI.remAct
      omega
    have hsingle : s.active = [tx] := by
      obtain ⟨a, ha⟩ := List.length_eq_one.mp hone
      rw [ha] at hmem
      rcases List.mem_singleton.mp hmem with rfl
      exact ha
    have hwonly : writtenOnly (leaveReg s.reg tx c) := by
      intro i sn h w hw hne
      rcases hLdual i sn h w hw hne with hwr | ⟨tx', hne', hmem', _, _, _⟩
      · exact hwr
      · rw [hsingle] at hmem'
        exact absurd (List.mem_singleton.mp hmem') hne'
    obtain ⟨pB, pH, pD, pV, pN, pO, p0, pHi, pGood⟩ := endOfEpoch_props (leaveReg s.reg tx c)
      (by intro k hk hk'
          rw [hLtop] at hk
          rw [hLsid]
          exact hLnone _ (hI.stackDisj k hk hk'))
      (by intro k hk hk'; rw [hLsid]; exact hI.stackVals k hk hk')
      (by intro k1 k2 hk1 hlt hk2
          rw [hLtop] at hk1
          rw [hLsid]
          exact hI.stackNodup k1 k2 hk1 hlt hk2)
      (by rw [hLocc, hLtop]; exact hI.occLe)
      (hLnone 0 hI.slot0)
      (fun i hi => hLnone i (hI.slotHi i hi))
      hwonly
    have hsl : sysLeave s tx c = { reg := endOfEpoch (leaveReg s.reg tx c)
                                   active := s.blockedTx
                                   blockedTx := [] } := by
      unfold sysLeave
      rw [if_pos hrem]
    rw [hsl]
    have hcnt : (endOfEpoch (leaveReg s.reg tx c)).batcher.counter
        = s.reg.batcher.counter + 1 := by
      rw [pB]
      show (leaveReg s.reg tx c).batcher.counter + 1 = _
      rw [hLbat]
    refine ⟨?_, ?_, ?_⟩
    · refine { remAct := ?_, blockedLen := ?_, rwCount := ?_, rwLe := ?_, quiet := ?_,
               roLe := ?_, blkRw := ?_, blkRo := ?_, blkNodup := ?_, actNodup := ?_,
               histActive := ?_, stackDisj := ?_, stackVals := ?_, stackNodup := ?_,
               occLe := ?_, slot0 := ?_, slotHi := ?_, dual := ?_ }
      · show (endOfEpoch (leaveReg s.reg tx c)).batcher.remaining = s.blockedTx.length
        rw [pB]
        show (leaveReg s.reg tx c).batcher.blocked = _
        rw [hLbat]
        exact hI.blockedLen
      · show (endOfEpoch (leaveReg s.reg tx c)).batcher.blocked = ([] : List Nat).length
        rw [pB]; rfl
      · show (endOfEpoch (leaveReg s.reg tx c)).batcher.rw_tx
            = (([] : List Nat).filter (fun t => t < MAX_RW_TX)).length
        rw [pB]; rfl
      · show (endOfEpoch (leaveReg s.reg tx c)).batcher.rw_tx ≤ MAX_RW_TX
        rw [pB]; exact Nat.zero_le _
      · exact fun _ => rfl
      · show MAX_RW_TX ≤ (endOfEpoch (leaveReg s.reg tx c)).batcher.ro_tx
        rw [pB]
      · exact fun t ht => absurd ht (List.not_mem_nil t)
      · exact fun t ht => absurd ht (List.not_mem_nil t)
      · exact List.nodup_nil
      · exact hI.blkNodup
      · intro t ht
        have h2 : (endOfEpoch (leaveReg s.reg tx c)).history t = [] := by rw [pH]
        exact absurd h2 ht
      · exact pD
      · exact pV
      · exact pN
      · exact pO
      · exact p0
      · exact pHi
      · intro i sn hsn w hw hne
        exact absurd (pGood i sn hsn w hw) hne
    · intro _ i sn hsn w hw
      exact pGood i sn hsn w hw
    · intro hcounter
      exact absurd (hcnt.symm.trans hcounter)
        (by omega : ¬ s.reg.batcher.counter + 1 = s.reg.batcher.counter)
  · -- not the last transaction: only the caller's bookkeeping changes
    have hsl : sysLeave s tx c = { reg := leaveReg s.reg tx c
                                   active := s.active.erase tx
                                   blockedTx := s.blockedTx } := by
      unfold sysLeave
      rw [if_neg hrem]
    rw [hsl]
    refine ⟨?_, ?_, ?_⟩
    · refine { remAct := ?_, blockedLen := ?_, rwCount := ?_, rwLe := ?_, quiet := ?_,
               roLe := ?_, blkRw := ?_, blkRo := ?_, blkNodup := ?_, actNodup := ?_,
               histActive := ?_, stackDisj := ?_, stackVals := ?_, stackNodup := ?_,
               occLe := ?_, slot0 := ?_, slotHi := ?_, dual := ?_ }
      · show (leaveReg s.reg tx c).batcher.remaining = (s.active.erase tx).length
        rw [hLrem, hI.remAct, List.length_erase_of_mem hmem]
      · show (leaveReg s.reg tx c).batcher.blocked = s.blockedTx.length
        rw [hLbat]; exact hI.blockedLen
      · show (leaveReg s.reg tx c).batcher.rw_tx
            = (s.blockedTx.filter (fun t => t < MAX_RW_TX)).length
        rw [hLbat]; exact hI.rwCount
      · show (leaveReg s.reg tx c).batcher.rw_tx ≤ MAX_RW_TX
        rw [hLbat]; exact hI.rwLe
      · intro hz
        exact absurd hz hrem
      · show MAX_RW_TX ≤ (leaveReg s.reg tx c).batcher.ro_tx
        rw [hLbat]; exact hI.roLe
      · intro t ht htl
        show t < (leaveReg s.reg tx c).batcher.rw_tx
        rw [hLbat]
        exact hI.blkRw t ht htl
      · intro t ht htl
        show t < (leaveReg s.reg tx c).batcher.ro_tx
        rw [hLbat]
        exact hI.blkRo t ht htl
      · exact hI.blkNodup
      · exact hI.actNodup.erase tx
      · intro t ht
        have ht' : updFn s.reg.history tx [] t ≠ [] := by
          rw [← hLhist t]; exact ht
        by_cases htt : t = tx
        · subst htt; rw [updFn_same] at ht'; exact absurd rfl ht'
        · rw [updFn_ne _ _ _ htt] at ht'
          obtain ⟨hmem', hlt'⟩ := hI.histActive t ht'
          exact ⟨(List.mem_erase_of_ne htt).mpr hmem', hlt'⟩
      · intro k hk hk'
        have hk0 : s.reg.top ≤ k := by rw [← hLtop]; exact hk
        show (leaveReg s.reg tx c).allocs ((leaveReg s.reg tx c).segment_id k) = none
        rw [hLsid]
        exact hLnone _ (hI.stackDisj k hk0 hk')
      · intro k hk hk'
        show 1 ≤ (leaveReg s.reg tx c).segment_id k ∧ (leaveReg s.reg tx c).segment_id k < MAX_SEG
        rw [hLsid]
        exact hI.stackVals k hk hk'
      · intro k1 k2 hk1 hlt hk2
        have hk0 : s.reg.top ≤ k1 := by rw [← hLtop]; exact hk1
        show (leaveReg s.reg tx c).segment_id k1 ≠ (leaveReg s.reg tx c).segment_id k2
        rw [hLsid]
        exact hI.stackNodup k1 k2 hk0 hlt hk2
      · show occCount (leaveReg s.reg tx c) + 1 ≤ (leaveReg s.reg tx c).top
        rw [hLocc, hLtop]
        exact hI.occLe
      · exact hLnone 0 hI.slot0
      · exact fun i hi => hLnone i (hI.slotHi i hi)
      · intro i sn hsn w hw hne
        rcases hLdual i sn hsn w hw hne with hwr | ⟨tx', hne', hmem', r, hr, hcov⟩
        · exact Or.inl hwr
        · refine Or.inr ⟨tx', (List.mem_erase_of_ne hne').mpr hmem', r, ?_, ?_⟩
          · show r ∈ (leaveReg s.reg tx c).history tx'
            rw [hLhist tx', updFn_ne _ _ _ hne']
            exact hr
          · show coversW (leaveReg s.reg tx c).align i w r
            rw [hLalign]
            exact hcov
    · intro hcounter
      have hcc : (leaveReg s.reg tx c).batcher.counter = s.reg.batcher.counter := by
        rw [hLbat]
      exact absurd (hcc.symm.trans hcounter)
        (by omega : ¬ s.reg.batcher.counter = s.reg.batcher.counter + 1)
    · intro _ i sn hsn
      exact hLro i sn hsn

/-- A step that changes nothing satisfies all step obligations. -/
theorem stepProps_id (s : Sys) (hI : Inv s) : StepProps s s :=
  ⟨hI, fun _ i sn h => ⟨sn, h, rfl, rfl⟩, fun hc => absurd hc (by omega)⟩

theorem sysLeave_stepProps (s : Sys) (tx : Nat) (c : Bool) (hI : Inv s)
    (hmem : tx ∈ s.active) : StepProps s (sysLeave s tx c) :=
  ⟨(sysLeave_master s tx c hI hmem).1, (sysLeave_master s tx c hI hmem).2.2,
   (sysLeave_master s tx c hI hmem).2.1⟩

/-- Prepending a record to an active read/write transaction's log preserves
the invariant. -/
theorem Inv_hist_prepend (s : Sys) (tx : Nat) (r : Record) (hI : Inv s)
    (hmem : tx ∈ s.active) (htx : tx < MAX_RW_TX) :
    Inv { s with reg := { s.reg with
        history := updFn s.reg.history tx (r :: s.reg.history tx) } } := by
  refine { remAct := hI.remAct, blockedLen := hI.blockedLen, rwCount := hI.rwCount,
           rwLe := hI.rwLe, quiet := hI.quiet, roLe := hI.roLe, blkRw := hI.blkRw,
           blkRo := hI.blkRo, blkNodup := hI.blkNodup, actNodup := hI.actNodup,
           histActive := ?_, stackDisj := hI.stackDisj, stackVals := hI.stackVals,
           stackNodup := hI.stackNodup, occLe := hI.occLe, slot0 := hI.slot0,
           slotHi := hI.slotHi, dual := ?_ }
  · intro t ht
    show t ∈ s.active ∧ t < MAX_RW_TX
    by_cases htt : t = tx
    · subst htt; exact ⟨hmem, htx⟩
    · refine hI.histActive t ?_
      have : updFn s.reg.history tx (r :: s.reg.history tx) t ≠ [] := ht
      rw [updFn_ne _ _ _ htt] at this
      exact this
  · intro i sn h w hw hne
    rcases hI.dual i sn h w hw hne with hwr | ⟨t', hm', r', hr', hcov'⟩
    · exact Or.inl hwr
    · refine Or.inr ⟨t', hm', r', ?_, hcov'⟩
      show r' ∈ updFn s.reg.history tx (r :: s.reg.history tx) t'
      by_cases htt : t' = tx
      · subst htt; rw [updFn_same]; exact List.mem_cons_of_mem r hr'
      · rw [updFn_ne _ _ _ htt]; exact hr'

/-- An operation by an active read/write transaction that replaces one live
segment (same word count, written flag and read-only copy; any word changed
in the read/write copy is covered by the record it logs) preserves the
invariant. -/
theorem Inv_op_update (s : Sys) (tx seg : Nat) (sn sn' : Seg) (r : Record)
    (hI : Inv s) (hmem : tx ∈ s.active) (htx : tx < MAX_RW_TX)
    (hseg : s.reg.allocs seg = some sn)
    (hnw : sn'.numWords = sn.numWords) (hwr : sn'.written = sn.written)
    (_hro : sn'.ro = sn.ro)
    (hself : ∀ w, w < sn.numWords → sn'.rw w ≠ sn'.ro w →
        sn.rw w ≠ sn.ro w ∨ coversW s.reg.align seg w r) :
    Inv { s with reg := { s.reg with
        allocs := updFn s.reg.allocs seg (some sn')
        history := updFn s.reg.history tx (r :: s.reg.history tx) } } := by
  have hsome : ∀ x, ((updFn s.reg.allocs seg (some sn') x).isSome) = ((s.reg.allocs x).isSome) := by
    intro x
    by_cases hx : x = seg
    · subst hx; rw [updFn_same, hseg]; rfl
    · rw [updFn_ne _ _ _ hx]
  have hnone : ∀ x, s.reg.allocs x = none → updFn s.reg.allocs seg (some sn') x = none := by
    intro x hx
    have := hsome x
    rw [hx] at this
    exact Option.not_isSome_iff_eq_none.mp (by rw [this]; simp)
  refine { remAct := hI.remAct, blockedLen := hI.blockedLen, rwCount := hI.rwCount,
           rwLe := hI.rwLe, quiet := hI.quiet, roLe := hI.roLe, blkRw := hI.blkRw,
           blkRo := hI.blkRo, blkNodup := hI.blkNodup, actNodup := hI.actNodup,
           histActive := ?_, stackDisj := ?_, stackVals := hI.stackVals,
           stackNodup := hI.stackNodup, occLe := ?_, slot0 := ?_,
           slotHi := ?_, dual := ?_ }
  · intro t ht
    show t ∈ s.active ∧ t < MAX_RW_TX
    by_cases htt : t = tx
    · subst htt; exact ⟨hmem, htx⟩
    · refine hI.histActive t ?_
      have : updFn s.reg.history tx (r :: s.reg.history tx) t ≠ [] := ht
      rw [updFn_ne _ _ _ htt] at this
      exact this
  · intro k hk hk'
    exact hnone _ (hI.stackDisj k hk hk')
  · show occCount { s.reg with
        allocs := updFn s.reg.allocs seg (some sn')
        history := updFn s.reg.history tx (r :: s.reg.history tx) } + 1 ≤ s.reg.top
    rw [occCount_congr s.reg _ (fun j => hsome j)]
    exact hI.occLe
  · exact hnone 0 hI.slot0
  · exact fun i hi => hnone i (hI.slotHi i hi)
  · intro i sn0 h0 w hw hne
    have hlift : ∀ t' r', r' ∈ s.reg.history t' →
        r' ∈ updFn s.reg.history tx (r :: s.reg.history tx) t' := by
      intro t' r' hr'
      by_cases htt : t' = tx
      · subst htt; rw [updFn_same]; exact List.mem_cons_of_mem r hr'
      · rw [updFn_ne _ _ _ htt]; exact hr'
    by_cases hx : i = seg
    · subst hx
      have h0' : updFn s.reg.allocs i (some sn') i = some sn0 := h0
      rw [updFn_same] at h0'
      have hsn0 : sn' = sn0 := Option.some_inj.mp h0'
      subst hsn0
      rcases hself w (by rw [← hnw]; exact hw) hne with hold | hcov
      · rcases hI.dual i sn hseg w (by rw [← hnw]; exact hw) hold with hw' | ⟨t', hm', r', hr', hcov'⟩
        · exact Or.inl (by rw [hwr]; exact hw')
        · exact Or.inr ⟨t', hm', r', hlift t' r' hr', hcov'⟩
      · refine Or.inr ⟨tx, hmem, r, ?_, hcov⟩
        show r ∈ updFn s.reg.history tx (r :: s.reg.history tx) tx
        rw [updFn_same]
        exact List.mem_cons_self r _
    · have h0' : updFn s.reg.allocs seg (some sn') i = some sn0 := h0
      rw [updFn_ne _ _ _ hx] at h0'
      rcases hI.dual i sn0 h0' w hw hne with hw' | ⟨t', hm', r', hr', hcov'⟩
      · exact Or.inl hw'
      · exact Or.inr ⟨t', hm', r', hlift t' r' hr', hcov'⟩

/-- Popping a segment id without installing a segment (the allocator-failure
path) preserves the invariant. -/
theorem Inv_top_bump (s : Sys) (hI : Inv s) :
    Inv { s with reg := { s.reg with top := s.reg.top + 1 } } := by
  refine { remAct := hI.remAct, blockedLen := hI.blockedLen, rwCount := hI.rwCount,
           rwLe := hI.rwLe, quiet := hI.quiet, roLe := hI.roLe, blkRw := hI.blkRw,
           blkRo := hI.blkRo, blkNodup := hI.blkNodup, actNodup := hI.actNodup,
           histActive := hI.histActive, stackDisj := ?_, stackVals := hI.stackVals,
           stackNodup := ?_, occLe := ?_, slot0 := hI.slot0,
           slotHi := hI.slotHi, dual := hI.dual }
  · intro k hk hk'
    have hk0 : s.reg.top + 1 ≤ k := hk
    exact hI.stackDisj k (by omega) hk'
  · intro k1 k2 hk1 hlt hk2
    have hk0 : s.reg.top + 1 ≤ k1 := hk1
    exact hI.stackNodup k1 k2 (by omega) hlt hk2
  · show occCount { s.reg with top := s.reg.top + 1 } + 1 ≤ s.reg.top + 1
    have hc : occCount ({ s.reg with top := s.reg.top + 1 } : Region) = occCount s.reg :=
      occCount_congr s.reg _ (fun j => rfl)
    rw [hc]
    have := hI.occLe
    omega

theorem sysRead_master (s : Sys) (tx seg off sz : Nat) (ok : Bool) (out : List Nat) (s' : Sys)
    (hI : Inv s) (hmem : tx ∈ s.active)
    (heq : sysRead s tx seg off sz = some (ok, out, s')) : StepProps s s' := by
  cases hseg : s.reg.allocs seg with
  | none =>
      unfold sysRead at heq
      rw [hseg] at heq
      exact Option.noConfusion heq
  | some sn =>
      unfold sysRead at heq
      rw [hseg] at heq
      simp only [] at heq
      by_cases hb : off / s.reg.align + sz / s.reg.align ≤ sn.numWords
      · rw [if_pos hb] at heq
        by_cases hro : MAX_RW_TX ≤ tx
        · rw [if_pos hro] at heq
          simp only [Option.some.injEq, Prod.mk.injEq] at heq
          obtain ⟨-, -, h3⟩ := heq
          exact h3 ▸ stepProps_id s hI
        · rw [if_neg hro] at heq
          have htx : tx < MAX_RW_TX := Nat.lt_of_not_le hro
          by_cases hc : ((List.range (sz / s.reg.align)).any
              (fun j => readConflictAt (sn.aset (off / s.reg.align + j)) (2 ^ tx))) = true
          · rw [if_pos hc] at heq
            simp only [Option.some.injEq, Prod.mk.injEq] at heq
            obtain ⟨-, -, h3⟩ := heq
            exact h3 ▸ sysLeave_stepProps s tx false hI hmem
          · rw [if_neg hc] at heq
            simp only [Option.some.injEq, Prod.mk.injEq] at heq
            obtain ⟨-, -, h3⟩ := heq
            refine h3 ▸ ⟨?_, ?_, ?_⟩
            · exact Inv_op_update s tx seg sn
                { sn with aset := orRange sn.aset (off / s.reg.align) (sz / s.reg.align) (2 ^ tx) }
                (Record.read seg off sz) hI hmem htx hseg rfl rfl rfl
                (fun w _ hne => Or.inl hne)
            · intro _ i sn0 h0
              by_cases hx : i = seg
              · subst hx
                have hsn0 : sn = sn0 := Option.some_inj.mp (hseg.symm.trans h0)
                subst hsn0
                refine ⟨{ sn with aset := orRange sn.aset (off / s.reg.align) (sz / s.reg.align) (2 ^ tx) },
                        ?_, rfl, rfl⟩
                show updFn s.reg.allocs i _ i = _
                rw [updFn_same]
              · refine ⟨sn0, ?_, rfl, rfl⟩
                show updFn s.reg.allocs seg _ i = some sn0
                rw [updFn_ne _ _ _ hx]
                exact h0
            · intro hc2
              exact absurd hc2
                (by omega : ¬ s.reg.batcher.counter = s.reg.batcher.counter + 1)
      · rw [if_neg hb] at heq
        exact Option.noConfusion heq

theorem sysWrite_master (s : Sys) (tx : Nat) (src : Nat → Nat) (seg off sz : Nat)
    (ok : Bool) (s' : Sys) (hI : Inv s) (hmem : tx ∈ s.active)
    (heq : sysWrite s tx src seg off sz = some (ok, s')) : StepProps s s' := by
  unfold sysWrite at heq
  by_cases hro : MAX_RW_TX ≤ tx
  · rw [if_pos hro] at heq
    exact Option.noConfusion heq
  · rw [if_neg hro] at heq
    have htx : tx < MAX_RW_TX := Nat.lt_of_not_le hro
    cases hseg : s.reg.allocs seg with
    | none =>
        rw [hseg] at heq
        exact Option.noConfusion heq
    | some sn =>
        rw [hseg] at heq
        simp only [] at heq
        by_cases hb : off / s.reg.align + sz / s.reg.align ≤ sn.numWords
        · rw [if_pos hb] at heq
          by_cases hc : ((List.range (sz / s.reg.align)).any
              (fun j => writeConflictAt (sn.aset (off / s.reg.align + j)) (2 ^ tx))) = true
          · rw [if_pos hc] at heq
            simp only [Option.some.injEq, Prod.mk.injEq] at heq
            obtain ⟨-, h2⟩ := heq
            exact h2 ▸ sysLeave_stepProps s tx false hI hmem
          · rw [if_neg hc] at heq
            simp only [Option.some.injEq, Prod.mk.injEq] at heq
            obtain ⟨-, h2⟩ := heq
            refine h2 ▸ ⟨?_, ?_, ?_⟩
            · refine Inv_op_update s tx seg sn
                { sn with aset := orRange sn.aset (off / s.reg.align) (sz / s.reg.align)
                            (WRITTEN ||| 2 ^ tx)
                          rw := writeRange sn.rw (off / s.reg.align) (sz / s.reg.align) src }
                (Record.write seg off sz) hI hmem htx hseg rfl rfl rfl ?_
              intro w _ hne
              by_cases hrange : off / s.reg.align ≤ w ∧ w < off / s.reg.align + sz / s.reg.align
              · exact Or.inr ⟨rfl, hrange.1, hrange.2⟩
              · refine Or.inl ?_
                have hw' : writeRange sn.rw (off / s.reg.align) (sz / s.reg.align) src w
                    = sn.rw w := by
                  simp only [writeRange, if_neg hrange]
                intro hcon
                apply hne
                show writeRange sn.rw (off / s.reg.align) (sz / s.reg.align) src w = sn.ro w
                rw [hw', hcon]
            · intro _ i sn0 h0
              by_cases hx : i = seg
              · subst hx
                have hsn0 : sn = sn0 := Option.some_inj.mp (hseg.symm.trans h0)
                subst hsn0
                refine ⟨{ sn with
                          aset := orRange sn.aset (off / s.reg.align) (sz / s.reg.align) (WRITTEN ||| 2 ^ tx)
                          rw := writeRange sn.rw (off / s.reg.align) (sz / s.reg.align) src }, ?_, rfl, rfl⟩
                show updFn s.reg.allocs i _ i = _
                rw [updFn_same]
              · refine ⟨sn0, ?_, rfl, rfl⟩
                show updFn s.reg.allocs seg _ i = some sn0
                rw [updFn_ne _ _ _ hx]
                exact h0
            · intro hc2
              exact absurd hc2
                (by omega : ¬ s.reg.batcher.counter = s.reg.batcher.counter + 1)
        · rw [if_neg hb] at heq
          exact Option.noConfusion heq

theorem tm_free_master (s : Sys) (tx hdl : Nat) (ok : Bool) (s' : Sys)
    (hI : Inv s) (hmem : tx ∈ s.active)
    (heq : tm_free s tx hdl = some (ok, s')) : StepProps s s' := by
  unfold tm_free at heq
  by_cases hro : MAX_RW_TX ≤ tx
  · rw [if_pos hro] at heq
    exact Option.noConfusion heq
  · rw [if_neg hro] at heq
    have htx : tx < MAX_RW_TX := Nat.lt_of_not_le hro
    simp only [] at heq
    by_cases hfs : (hdl >>> SHIFT) % 256 = FIRST_SEG
    · rw [if_pos hfs] at heq
      simp only [Option.some.injEq, Prod.mk.injEq] at heq
      obtain ⟨-, h2⟩ := heq
      exact h2 ▸ sysLeave_stepProps s tx false hI hmem
    · rw [if_neg hfs] at heq
      simp only [Option.some.injEq, Prod.mk.injEq] at heq
      obtain ⟨-, h2⟩ := heq
      refine h2 ▸ ⟨Inv_hist_prepend s tx _ hI hmem htx, ?_, ?_⟩
      · intro _ i sn0 h0
        exact ⟨sn0, h0, rfl, rfl⟩
      · intro hc
        exact absurd hc (by omega : ¬ s.reg.batcher.counter = s.reg.batcher.counter + 1)

/-- Registering a freshly allocated segment at the id popped from the stack
(while logging the ALLOC record) preserves the invariant. -/
theorem Inv_alloc_success (s : Sys) (tx nw : Nat) (hI : Inv s) (hmem : tx ∈ s.active)
    (htx : tx < MAX_RW_TX) (htop : s.reg.top < MAX_SEG) :
    Inv { s with reg := { s.reg with
        top := s.reg.top + 1
        allocs := updFn s.reg.allocs (s.reg.segment_id s.reg.top) (some (mkSeg nw))
        history := updFn s.reg.history tx
          (Record.alloc (s.reg.segment_id s.reg.top) :: s.reg.history tx) } } := by
  have htop1 : 1 ≤ s.reg.top := le_trans (Nat.le_add_left 1 _) hI.occLe
  have hvals := hI.stackVals s.reg.top htop1 htop
  have hfresh : s.reg.allocs (s.reg.segment_id s.reg.top) = none :=
    hI.stackDisj s.reg.top (le_refl _) htop
  refine { remAct := hI.remAct, blockedLen := hI.blockedLen, rwCount := hI.rwCount,
           rwLe := hI.rwLe, quiet := hI.quiet, roLe := hI.roLe, blkRw := hI.blkRw,
           blkRo := hI.blkRo, blkNodup := hI.blkNodup, actNodup := hI.actNodup,
           histActive := ?_, stackDisj := ?_, stackVals := hI.stackVals,
           stackNodup := ?_, occLe := ?_, slot0 := ?_,
           slotHi := ?_, dual := ?_ }
  · intro t ht
    show t ∈ s.active ∧ t < MAX_RW_TX
    by_cases htt : t = tx
    · subst htt; exact ⟨hmem, htx⟩
    · refine hI.histActive t ?_
      have : updFn s.reg.history tx
          (Record.alloc (s.reg.segment_id s.reg.top) :: s.reg.history tx) t ≠ [] := ht
      rw [updFn_ne _ _ _ htt] at this
      exact this
  · intro k hk hk'
    have hk0 : s.reg.top + 1 ≤ k := hk
    show updFn s.reg.allocs _ _ (s.reg.segment_id k) = none
    have hne : s.reg.segment_id k ≠ s.reg.segment_id s.reg.top :=
      fun h => hI.stackNodup s.reg.top k (le_refl _) (by omega) hk' h.symm
    rw [updFn_ne _ _ _ hne]
    exact hI.stackDisj k (by omega) hk'
  · intro k1 k2 hk1 hlt hk2
    have hk0 : s.reg.top + 1 ≤ k1 := hk1
    exact hI.stackNodup k1 k2 (by omega) hlt hk2
  · show occCount { s.reg with
        top := s.reg.top + 1
        allocs := updFn s.reg.allocs (s.reg.segment_id s.reg.top) (some (mkSeg nw))
        history := updFn s.reg.history tx
          (Record.alloc (s.reg.segment_id s.reg.top) :: s.reg.history tx) } + 1
      ≤ s.reg.top + 1
    have h1 : occCount { s.reg with
        top := s.reg.top + 1
        allocs := updFn s.reg.allocs (s.reg.segment_id s.reg.top) (some (mkSeg nw))
        history := updFn s.reg.history tx
          (Record.alloc (s.reg.segment_id s.reg.top) :: s.reg.history tx) }
      = occCount (setSeg s.reg (s.reg.segment_id s.reg.top) (mkSeg nw)) :=
      occCount_congr _ _ (fun j => rfl)
    rw [h1, occCount_set_fresh s.reg _ _ hvals.2 hfresh]
    have := hI.occLe
    omega
  · have hne : (0 : Nat) ≠ s.reg.segment_id s.reg.top := by
      have := hvals.1
      omega
    show updFn s.reg.allocs _ _ 0 = none
    rw [updFn_ne _ _ _ hne]
    exact hI.slot0
  · intro i hi
    have hne : i ≠ s.reg.segment_id s.reg.top := by
      have := hvals.2
      omega
    show updFn s.reg.allocs _ _ i = none
    rw [updFn_ne _ _ _ hne]
    exact hI.slotHi i hi
  · intro i sn0 h0 w hw hne
    have hlift : ∀ t' r', r' ∈ s.reg.history t' →
        r' ∈ updFn s.reg.history tx
          (Record.alloc (s.reg.segment_id s.reg.top) :: s.reg.history tx) t' := by
      intro t' r' hr'
      by_cases htt : t' = tx
      · subst htt; rw [updFn_same]; exact List.mem_cons_of_mem _ hr'
      · rw [updFn_ne _ _ _ htt]; exact hr'
    by_cases hx : i = s.reg.segment_id s.reg.top
    · have h0' : updFn s.reg.allocs (s.reg.segment_id s.reg.top) (some (mkSeg nw)) i
          = some sn0 := h0
      rw [hx, updFn_same] at h0'
      have hsn0 : mkSeg nw = sn0 := Option.some_inj.mp h0'
      subst hsn0
      exact absurd rfl hne
    · have h0' : updFn s.reg.allocs (s.reg.segment_id s.reg.top) (some (mkSeg nw)) i
          = some sn0 := h0
      rw [updFn_ne _ _ _ hx] at h0'
      rcases hI.dual i sn0 h0' w hw hne with hw' | ⟨t', hm', r', hr', hcov'⟩
      · exact Or.inl hw'
      · exact Or.inr ⟨t', hm', r', hlift t' r' hr', hcov'⟩

theorem sysAlloc_master (s : Sys) (tx szBytes : Nat) (allocOk : Bool) (res : AllocRes) (s' : Sys)
    (hI : Inv s) (hmem : tx ∈ s.active)
    (heq : sysAlloc s tx szBytes allocOk = some (res, s')) : StepProps s s' := by
  unfold sysAlloc at heq
  by_cases hro : MAX_RW_TX ≤ tx
  · rw [if_pos hro] at heq
    exact Option.noConfusion heq
  · rw [if_neg hro] at heq
    have htx : tx < MAX_RW_TX := Nat.lt_of_not_le hro
    unfold alloc_segment at heq
    by_cases hov : MAX_SEG ≤ s.reg.top
    · rw [if_pos hov] at heq
      simp only [] at heq
      simp only [Option.some.injEq, Prod.mk.injEq] at heq
      obtain ⟨-, h2⟩ := heq
      exact h2 ▸ sysLeave_stepProps s tx false hI hmem
    · rw [if_neg hov] at heq
      simp only [] at heq
      by_cases hok : allocOk = true
      · rw [if_pos hok] at heq
        simp only [Option.some.injEq, Prod.mk.injEq] at heq
        obtain ⟨-, h2⟩ := heq
        refine h2 ▸ ⟨?_, ?_, ?_⟩
        · exact Inv_alloc_success s tx (szBytes / s.reg.align) hI hmem htx (Nat.lt_of_not_le hov)
        · intro _ i sn0 h0
          by_cases hx : i = s.reg.segment_id s.reg.top
          · subst hx
            have hfresh : s.reg.allocs (s.reg.segment_id s.reg.top) = none :=
              hI.stackDisj s.reg.top (le_refl _) (Nat.lt_of_not_le hov)
            rw [hfresh] at h0
            exact Option.noConfusion h0
          · refine ⟨sn0, ?_, rfl, rfl⟩
            show updFn s.reg.allocs _ _ i = some sn0
            rw [updFn_ne _ _ _ hx]
            exact h0
        · intro hc
          exact absurd hc (by omega : ¬ s.reg.batcher.counter = s.reg.batcher.counter + 1)
      · rw [if_neg hok] at heq
        simp only [Option.some.injEq, Prod.mk.injEq] at heq
        obtain ⟨-, h2⟩ := heq
        have hI1 : Inv { s with reg := { s.reg with top := s.reg.top + 1 } } := Inv_top_bump s hI
        have hP := sysLeave_stepProps { s with reg := { s.reg with top := s.reg.top + 1 } }
          tx false hI1 hmem
        exact h2 ▸ ⟨hP.1, hP.2.1, hP.2.2⟩

theorem sysEnter_master (s : Sys) (is_ro : Bool) (hI : Inv s) :
    StepProps s (sysEnter s is_ro).2 := by
  unfold sysEnter
  simp only []
  by_cases hrem : s.reg.batcher.remaining = 0
  · rw [if_pos hrem]
    show StepProps s { s with
        active := (if is_ro then MAX_RW_TX else 0) :: s.active
        reg := { s.reg with batcher := { s.reg.batcher with remaining := 1 } } }
    have hact : s.active = [] := List.length_eq_zero.mp (by have := hI.remAct; omega)
    refine ⟨?_, fun _ i sn h => ⟨sn, h, rfl, rfl⟩,
            fun hc => absurd hc (by omega : ¬ s.reg.batcher.counter = s.reg.batcher.counter + 1)⟩
    refine { remAct := ?_, blockedLen := hI.blockedLen, rwCount := hI.rwCount,
             rwLe := hI.rwLe, quiet := fun _ => hI.quiet hrem, roLe := hI.roLe,
             blkRw := hI.blkRw, blkRo := hI.blkRo, blkNodup := hI.blkNodup,
             actNodup := ?_, histActive := ?_, stackDisj := hI.stackDisj,
             stackVals := hI.stackVals, stackNodup := hI.stackNodup, occLe := hI.occLe,
             slot0 := hI.slot0, slotHi := hI.slotHi, dual := ?_ }
    · show (1 : Nat) = ((if is_ro then MAX_RW_TX else 0) :: s.active).length
      rw [hact]
      rfl
    · show ((if is_ro then MAX_RW_TX else 0) :: s.active).Nodup
      rw [hact]
      exact List.nodup_cons.mpr ⟨List.not_mem_nil _, List.nodup_nil⟩
    · intro t ht
      have h := hI.histActive t ht
      exact ⟨List.mem_cons_of_mem _ h.1, h.2⟩
    · intro i sn h w hw hne
      rcases hI.dual i sn h w hw hne with hw' | ⟨t', hm', r', hr', hcov'⟩
      · exact Or.inl hw'
      · exact Or.inr ⟨t', List.mem_cons_of_mem _ hm', r', hr', hcov'⟩
  · rw [if_neg hrem]
    by_cases hro : is_ro = true
    · rw [if_pos hro]
      show StepProps s { s with
          blockedTx := s.reg.batcher.ro_tx :: s.blockedTx
          reg := { s.reg with batcher := { s.reg.batcher with
              ro_tx := s.reg.batcher.ro_tx + 1
              blocked := s.reg.batcher.blocked + 1 } } }
      have hro63 : MAX_RW_TX ≤ s.reg.batcher.ro_tx := hI.roLe
      refine ⟨?_, fun _ i sn h => ⟨sn, h, rfl, rfl⟩,
              fun hc => absurd hc (by omega : ¬ s.reg.batcher.counter = s.reg.batcher.counter + 1)⟩
      refine { remAct := hI.remAct, blockedLen := ?_, rwCount := ?_, rwLe := hI.rwLe,
               quiet := ?_, roLe := ?_, blkRw := ?_, blkRo := ?_, blkNodup := ?_,
               actNodup := hI.actNodup, histActive := hI.histActive,
               stackDisj := hI.stackDisj, stackVals := hI.stackVals,
               stackNodup := hI.stackNodup, occLe := hI.occLe, slot0 := hI.slot0,
               slotHi := hI.slotHi, dual := hI.dual }
      · show s.reg.batcher.blocked + 1 = (s.reg.batcher.ro_tx :: s.blockedTx).length
        rw [List.length_cons, hI.blockedLen]
      · have hf : ¬ (decide (s.reg.batcher.ro_tx < MAX_RW_TX) = true) := by
          simp only [decide_eq_true_eq]
          omega
        show s.reg.batcher.rw_tx
            = ((s.reg.batcher.ro_tx :: s.blockedTx).filter (fun t => t < MAX_RW_TX)).length
        rw [List.filter_cons, if_neg hf]
        exact hI.rwCount
      · intro h
        exact absurd h hrem
      · show MAX_RW_TX ≤ s.reg.batcher.ro_tx + 1
        omega
      · intro t ht htlt
        show t < s.reg.batcher.rw_tx
        rcases List.mem_cons.mp ht with h1 | h2
        · exact absurd htlt (by rw [h1]; omega)
        · exact hI.blkRw t h2 htlt
      · intro t ht hge
        show t < s.reg.batcher.ro_tx + 1
        rcases List.mem_cons.mp ht with h1 | h2
        · omega
        · have := hI.blkRo t h2 hge
          omega
      · show (s.reg.batcher.ro_tx :: s.blockedTx).Nodup
        refine List.nodup_cons.mpr ⟨?_, hI.blkNodup⟩
        intro hm
        have := hI.blkRo _ hm hro63
        omega
    · rw [if_neg hro]
      by_cases hcap : MAX_RW_TX ≤ s.reg.batcher.rw_tx
      · rw [if_pos hcap]
        exact stepProps_id s hI
      · rw [if_neg hcap]
        show StepProps s { s with
            blockedTx := s.reg.batcher.rw_tx :: s.blockedTx
            reg := { s.reg with batcher := { s.reg.batcher with
                rw_tx := s.reg.batcher.rw_tx + 1
                blocked := s.reg.batcher.blocked + 1 } } }
        refine ⟨?_, fun _ i sn h => ⟨sn, h, rfl, rfl⟩,
                fun hc => absurd hc (by omega : ¬ s.reg.batcher.counter = s.reg.batcher.counter + 1)⟩
        refine { remAct := hI.remAct, blockedLen := ?_, rwCount := ?_, rwLe := ?_,
                 quiet := ?_, roLe := hI.roLe, blkRw := ?_, blkRo := ?_, blkNodup := ?_,
                 actNodup := hI.actNodup, histActive := hI.histActive,
                 stackDisj := hI.stackDisj, stackVals := hI.stackVals,
                 stackNodup := hI.stackNodup, occLe := hI.occLe, slot0 := hI.slot0,
                 slotHi := hI.slotHi, dual := hI.dual }
        · show s.reg.batcher.blocked + 1 = (s.reg.batcher.rw_tx :: s.blockedTx).length
          rw [List.length_cons, hI.blockedLen]
        · have hf : decide (s.reg.batcher.rw_tx < MAX_RW_TX) = true :=
            decide_eq_true (by omega)
          show s.reg.batcher.rw_tx + 1
              = ((s.reg.batcher.rw_tx :: s.blockedTx).filter (fun t => t < MAX_RW_TX)).length
          rw [List.filter_cons, if_pos hf, List.length_cons]
          have := hI.rwCount
          omega
        · show s.reg.batcher.rw_tx + 1 ≤ MAX_RW_TX
          omega
        · intro h
          exact absurd h hrem
        · intro t ht htlt
          show t < s.reg.batcher.rw_tx + 1
          rcases List.mem_cons.mp ht with h1 | h2
          · omega
          · have := hI.blkRw t h2 htlt
            omega
        · intro t ht hge
          show t < s.reg.batcher.ro_tx
          rcases List.mem_cons.mp ht with h1 | h2
          · exact absurd (h1 ▸ hge) hcap
          · exact hI.blkRo t h2 hge
        · show (s.reg.batcher.rw_tx :: s.blockedTx).Nodup
          refine List.nodup_cons.mpr ⟨?_, hI.blkNodup⟩
          intro hm
          have := hI.blkRw _ hm (by omega)
          omega

theorem step_master {s s' : Sys} (hI : Inv s) (hstep : Step s s') : StepProps s s' := by
  cases hstep with
  | enter is_ro => exact sysEnter_master s is_ro hI
  | read tx seg off sz ok out _ hmem heq =>
      exact sysRead_master s tx seg off sz ok out s' hI hmem heq
  | write tx src seg off sz ok _ hmem heq =>
      exact sysWrite_master s tx src seg off sz ok s' hI hmem heq
  | alloc tx szBytes allocOk res _ hmem heq =>
      exact sysAlloc_master s tx szBytes allocOk res s' hI hmem heq
  | fre tx hdl ok _ hmem heq =>
      exact tm_free_master s tx hdl ok s' hI hmem heq
  | endTx tx hmem => exact sysLeave_stepProps s tx true hI hmem

theorem occCount_create (szBytes align : Nat) : occCount (tm_create szBytes align).reg = 1 := by
  have h1 : (Finset.range MAX_SEG).filter
      (fun i => ((updFn (fun _ : Nat => (none : Option Seg)) FIRST_SEG
        (some (mkSeg (szBytes / align)))) i).isSome) = {FIRST_SEG} := by
    ext j
    by_cases hj : j = FIRST_SEG
    · subst hj
      simp [updFn, FIRST_SEG, MAX_SEG]
    · simp only [updFn, hj, Finset.mem_filter, Finset.mem_singleton, Finset.mem_range,
        if_false, Option.isSome_none, Bool.false_eq_true, and_false, false_iff]
  show ((Finset.range MAX_SEG).filter
      (fun i => ((updFn (fun _ : Nat => (none : Option Seg)) FIRST_SEG
        (some (mkSeg (szBytes / align)))) i).isSome)).card = 1
  rw [h1]
  rfl

/-- The invariant holds of a freshly created region. -/
theorem Inv_init (szBytes align : Nat) : Inv (tm_create szBytes align) := by
  have hF : FIRST_SEG = 1 := rfl
  have hM : MAX_SEG = 64 := rfl
  refine { remAct := rfl, blockedLen := rfl, rwCount := rfl,
           rwLe := by show (0 : Nat) ≤ MAX_RW_TX; omega,
           quiet := fun _ => rfl,
           roLe := le_refl _,
           blkRw := fun t ht _ => absurd ht (List.not_mem_nil t),
           blkRo := fun t ht _ => absurd ht (List.not_mem_nil t),
           blkNodup := List.nodup_nil, actNodup := List.nodup_nil,
           histActive := fun tx h => absurd rfl h,
           stackDisj := ?_, stackVals := ?_, stackNodup := ?_,
           occLe := ?_, slot0 := ?_, slotHi := ?_, dual := ?_ }
  · intro k hk hk'
    have hk0 : FIRST_SEG + 1 ≤ k := hk
    have hk1 : k < MAX_SEG := hk'
    show updFn (fun _ : Nat => (none : Option Seg)) FIRST_SEG
      (some (mkSeg (szBytes / align))) k = none
    rw [updFn_ne _ _ _ (by omega : k ≠ FIRST_SEG)]
  · intro k h1 h2
    exact ⟨h1, h2⟩
  · intro k1 k2 _ hlt _
    show k1 ≠ k2
    omega
  · show occCount (tm_create szBytes align).reg + 1 ≤ FIRST_SEG + 1
    rw [occCount_create]
    omega
  · show updFn (fun _ : Nat => (none : Option Seg)) FIRST_SEG
      (some (mkSeg (szBytes / align))) 0 = none
    rw [updFn_ne _ _ _ (by omega : (0 : Nat) ≠ FIRST_SEG)]
  · intro i hi
    have hi' : MAX_SEG ≤ i := hi
    show updFn (fun _ : Nat => (none : Option Seg)) FIRST_SEG
      (some (mkSeg (szBytes / align))) i = none
    rw [updFn_ne _ _ _ (by omega : i ≠ FIRST_SEG)]
  · intro i sn h w hw hne
    by_cases hi : i = FIRST_SEG
    · have h' : updFn (fun _ : Nat => (none : Option Seg)) FIRST_SEG
          (some (mkSeg (szBytes / align))) i = some sn := h
      rw [hi, updFn_same] at h'
      have hsn := Option.some_inj.mp h'
      subst hsn
      exact absurd rfl hne
    · have h' : updFn (fun _ : Nat => (none : Option Seg)) FIRST_SEG
          (some (mkSeg (szBytes / align))) i = some sn := h
      rw [updFn_ne _ _ _ hi] at h'
      exact Option.noConfusion h'

/-- Every reachable state satisfies the inductive invariant. -/
theorem inv_of_reach {s : Sys} (h : Reach s) : Inv s := by
  induction h with
  | init szBytes align => exact Inv_init szBytes align
  | step hr hstep ih => exact (step_master ih hstep).1

/-- C4: a tm_read by a read-only transaction (tx ≥ MAX_RW_TX) succeeds,
changes nothing (no per-word lock is taken, no access set or other state
changes), and returns exactly the words of the segment's read-only copy;
moreover any step of the system that does not cross an epoch boundary leaves
every live segment's read-only copy (and word count) unchanged, so all bytes
a read-only transaction observes during an epoch come from the snapshot
installed at the previous epoch boundary. -/
theorem c4_ro_snapshot_stability (s s' : Sys) (tx seg off sz : Nat) (ok : Bool)
    (out : List Nat) (t : Sys)
    (hr : Reach s) (hstep : Step s s')
    (hcnt : s'.reg.batcher.counter = s.reg.batcher.counter)
    (htx : MAX_RW_TX ≤ tx)
    (heq : sysRead s tx seg off sz = some (ok, out, t)) :
    (ok = true ∧ t = s ∧ tmReadLocks s tx seg off sz = [] ∧
      ∃ sn, s.reg.allocs seg = some sn ∧
        out = readSlice sn.ro (off / s.reg.align) (sz / s.reg.align)) ∧
    (∀ i sn, s.reg.allocs i = some sn → ∃ sn', s'.reg.allocs i = some sn' ∧
        sn'.ro = sn.ro ∧ sn'.numWords = sn.numWords) := by
  constructor
  · cases hseg : s.reg.allocs seg with
    | none =>
        unfold sysRead at heq
        rw [hseg] at heq
        exact Option.noConfusion heq
    | some sn =>
        unfold sysRead at heq
        rw [hseg] at heq
        simp only [] at heq
        by_cases hb : off / s.reg.align + sz / s.reg.align ≤ sn.numWords
        · rw [if_pos hb, if_pos htx] at heq
          simp only [Option.some.injEq, Prod.mk.injEq] at heq
          obtain ⟨h1, h2, h3⟩ := heq
          refine ⟨h1.symm, h3.symm, ?_, sn, rfl, h2.symm⟩
          unfold tmReadLocks
          rw [hseg]
          simp only []
          rw [if_pos htx]
        · rw [if_neg hb] at heq
          exact Option.noConfusion heq
  · exact (step_master (inv_of_reach hr) hstep).2.1 hcnt

/-- Witness for C4: in the two-word region with transaction 0 running,
read-only transaction 63 reads the first word; the concurrent admission step
st1 to st2 stays inside the epoch and preserves the snapshot. -/
theorem c4_witness :
    (MAX_RW_TX ≤ 63 ∧ sysRead st1 63 1 0 8 = some (true, [0], st1)) ∧
    ((true = true ∧ st1 = st1 ∧ tmReadLocks st1 63 1 0 8 = [] ∧
      ∃ sn, st1.reg.allocs 1 = some sn ∧
        [0] = readSlice sn.ro (0 / st1.reg.align) (8 / st1.reg.align)) ∧
     (∀ i sn, st1.reg.allocs i = some sn → ∃ sn', st2.reg.allocs i = some sn' ∧
        sn'.ro = sn.ro ∧ sn'.numWords = sn.numWords)) :=
  ⟨⟨by decide, rfl⟩,
   c4_ro_snapshot_stability st1 st2 63 1 0 8 true [0] st1 reach_st1
     (Step.enter st1 false) rfl (by decide) rfl⟩

/-- C6 (amended): on every reachable state, begin returns INVALID iff the
caller is read/write and the 63 read/write ids of the next-epoch cohort are
all taken (rw_tx = MAX_RW_TX, equivalently 63 read/write transactions are
parked in blockedTx); on rejection the state is unchanged, and a read-only
begin is never rejected. -/
theorem c6_capacity_amended (s : Sys) (is_ro : Bool) (hr : Reach s) :
    ((sysEnter s is_ro).1 = none ↔
      is_ro = false ∧ s.reg.batcher.rw_tx = MAX_RW_TX ∧
        (s.blockedTx.filter (fun t => t < MAX_RW_TX)).length = MAX_RW_TX) ∧
    ((sysEnter s is_ro).1 = none → (sysEnter s is_ro).2 = s) ∧
    (is_ro = true → (sysEnter s is_ro).1 ≠ none) := by
  have hI := inv_of_reach hr
  unfold sysEnter
  simp only []
  by_cases hrem : s.reg.batcher.remaining = 0
  · rw [if_pos hrem]
    refine ⟨⟨fun h => Option.noConfusion h, ?_⟩, fun h => Option.noConfusion h,
            fun _ h => Option.noConfusion h⟩
    rintro ⟨-, -, hlen⟩
    rw [hI.quiet hrem] at hlen
    exact absurd hlen (by decide)
  · rw [if_neg hrem]
    by_cases hro : is_ro = true
    · rw [if_pos hro]
      refine ⟨⟨fun h => Option.noConfusion h, ?_⟩, fun h => Option.noConfusion h,
              fun _ h => Option.noConfusion h⟩
      rintro ⟨hf, -, -⟩
      rw [hro] at hf
      exact Bool.noConfusion hf
    · rw [if_neg hro]
      have hro' : is_ro = false := Bool.not_eq_true is_ro ▸ hro
      by_cases hcap : MAX_RW_TX ≤ s.reg.batcher.rw_tx
      · rw [if_pos hcap]
        have hcnt := hI.rwCount
        have hle := hI.rwLe
        refine ⟨⟨fun _ => ⟨hro', by omega, by omega⟩, fun _ => rfl⟩,
                fun _ => rfl, fun h => absurd h hro⟩
      · rw [if_neg hcap]
        have hcnt := hI.rwCount
        refine ⟨⟨fun h => Option.noConfusion h, ?_⟩, fun h => Option.noConfusion h,
                fun h => absurd h hro⟩
        rintro ⟨-, hrw, -⟩
        exact absurd hrw (by omega)

/-- Witness for C6: the amended capacity characterization evaluated on the
fresh two-word region for a read/write begin. -/
theorem c6_witness :
    ((sysEnter st0 false).1 = none ↔
      false = false ∧ st0.reg.batcher.rw_tx = MAX_RW_TX ∧
        (st0.blockedTx.filter (fun t => t < MAX_RW_TX)).length = MAX_RW_TX) ∧
    ((sysEnter st0 false).1 = none → (sysEnter st0 false).2 = st0) ∧
    (false = true → (sysEnter st0 false).1 ≠ none) :=
  c6_capacity_amended st0 false (Reach.init 16 8)

/-- C10: whenever a step of the system crosses an epoch boundary (the
end-of-epoch procedure runs as the last transaction leaves), every live
segment of the resulting quiescent state has its read-write copy equal to
its read-only copy on every word. -/
theorem c10_dual_copy_agreement (s s' : Sys) (hr : Reach s) (hstep : Step s s')
    (hb : s'.reg.batcher.counter = s.reg.batcher.counter + 1) :
    ∀ i sn, s'.reg.allocs i = some sn → ∀ w, w < sn.numWords → sn.rw w = sn.ro w :=
  (step_master (inv_of_reach hr) hstep).2.2 hb

/-- Witness for C10: the epoch boundary crossed when transaction 0 commits
out of the four-transaction state st4. -/
theorem c10_witness :
    st5.reg.batcher.counter = st4.reg.batcher.counter + 1 ∧
    (∀ i sn, st5.reg.allocs i = some sn → ∀ w, w < sn.numWords → sn.rw w = sn.ro w) :=
  ⟨by decide,
   c10_dual_copy_agreement st4 st5 reach_st4 (Step.endTx st4 0 (by decide)) (by decide)⟩

end STM
